import Mathlib

/-!
Verification of the go-cache repository (gansidui/go-cache): a durable
key-value store (`KVStore`, src/kvstore.go) with a TTL expiration subsystem
(`TTLChecker`, `TTLCache`).  The Go code is shallowly embedded: byte strings
become `List Nat`, the leveldb engine becomes a sorted association list (its
contract per spec section 6: lexicographically ordered byte-string keys,
atomic batch writes, bidirectional iteration), the skiplist index and the
JSON record codec (external libraries) are modelled from the spec's stated
contracts.  Go `uint64` / `int64` arithmetic is embedded as `Nat` / `Int`
with explicit reduction modulo `2 ^ 64` at the points where the code relies
on machine arithmetic.
-/

/-- Byte strings (Go `[]byte`): lists of byte values. -/
abbrev Bytes := List Nat

/-- Go `bytes.Compare`: lexicographic three-way comparison of byte strings,
with a proper prefix ordered first. -/
def bytesCompare : Bytes → Bytes → Ordering
  | [], [] => Ordering.eq
  | [], _ :: _ => Ordering.lt
  | _ :: _, [] => Ordering.gt
  | a :: as, b :: bs =>
    if a < b then Ordering.lt
    else if b < a then Ordering.gt
    else bytesCompare as bs

/-- Strict lexicographic order on byte strings, as a boolean. -/
def keyLt (a b : Bytes) : Bool := decide (bytesCompare a b = Ordering.lt)

theorem bytesCompare_self : ∀ a : Bytes, bytesCompare a a = Ordering.eq
  | [] => rfl
  | _ :: as => by simp [bytesCompare, bytesCompare_self as]

theorem bytesCompare_eq_iff : ∀ a b : Bytes, bytesCompare a b = Ordering.eq ↔ a = b
  | [], [] => by simp [bytesCompare]
  | [], _ :: _ => by simp [bytesCompare]
  | _ :: _, [] => by simp [bytesCompare]
  | a :: as, b :: bs => by
    simp only [bytesCompare]
    split
    · simp only [List.cons.injEq]
      exact ⟨fun h => absurd h (by simp), fun h => absurd h.1 (by omega)⟩
    · split
      · simp only [List.cons.injEq]
        exact ⟨fun h => absurd h (by simp), fun h => absurd h.1 (by omega)⟩
      · have hab : a = b := by omega
        subst hab
        simp [bytesCompare_eq_iff as bs]

theorem bytesCompare_gt_iff : ∀ a b : Bytes,
    bytesCompare a b = Ordering.gt ↔ bytesCompare b a = Ordering.lt
  | [], [] => by simp [bytesCompare]
  | [], _ :: _ => by simp [bytesCompare]
  | _ :: _, [] => by simp [bytesCompare]
  | a :: as, b :: bs => by
    simp only [bytesCompare]
    rcases Nat.lt_trichotomy a b with h | h | h
    · simp [h, Nat.not_lt_of_lt h]
    · subst h
      simp [bytesCompare_gt_iff as bs]
    · simp [h, Nat.not_lt_of_lt h]

theorem keyLt_irrefl (a : Bytes) : keyLt a a = false := by
  simp [keyLt, bytesCompare_self a]

theorem keyLt_trans : ∀ a b c : Bytes, keyLt a b = true → keyLt b c = true → keyLt a c = true
  | [], _ :: _, _ :: _, _, _ => by simp [keyLt, bytesCompare]
  | [], [], c, h, _ => by simp [keyLt, bytesCompare_self] at h
  | _, _ :: _, [], _, h => by simp [keyLt, bytesCompare] at h
  | _ :: _, [], _, h, _ => by simp [keyLt, bytesCompare] at h
  | a :: as, b :: bs, c :: cs, hab, hbc => by
    simp only [keyLt, bytesCompare, decide_eq_true_eq] at hab hbc ⊢
    rcases Nat.lt_trichotomy a b with h1 | h1 | h1
    · rcases Nat.lt_trichotomy b c with h2 | h2 | h2
      · have : a < c := Nat.lt_trans h1 h2
        simp [this]
      · subst h2
        simp [h1]
      · simp [h2, Nat.not_lt_of_lt h2] at hbc
    · subst h1
      simp only [lt_irrefl, if_false] at hab
      rcases Nat.lt_trichotomy a c with h2 | h2 | h2
      · simp [h2]
      · subst h2
        simp only [lt_irrefl, if_false] at hbc ⊢
        have h3 := keyLt_trans as bs cs (by simp [keyLt, hab]) (by simp [keyLt, hbc])
        simpa [keyLt] using h3
      · simp [h2, Nat.not_lt_of_lt h2] at hbc
    · simp [h1, Nat.not_lt_of_lt h1] at hab

theorem keyLt_total (a b : Bytes) : keyLt a b = true ∨ a = b ∨ keyLt b a = true := by
  rcases h : bytesCompare a b with _ | _ | _
  · left
    simp [keyLt, h]
  · right; left
    exact (bytesCompare_eq_iff a b).mp h
  · right; right
    simp [keyLt, (bytesCompare_gt_iff a b).mp h]

theorem keyLt_asymm (a b : Bytes) (h : keyLt a b = true) : keyLt b a = false := by
  by_contra hc
  have hba : keyLt b a = true := by
    cases hh : keyLt b a
    · exact absurd hh hc
    · rfl
  have := keyLt_trans a b a h hba
  simp [keyLt_irrefl] at this

theorem keyLt_ne (a b : Bytes) (h : keyLt a b = true) : a ≠ b := by
  intro he
  subst he
  simp [keyLt_irrefl] at h

theorem keyLt_of_not_lt_of_ne (a b : Bytes) (h : keyLt a b = false) (hne : a ≠ b) :
    keyLt b a = true := by
  rcases keyLt_total a b with h1 | h1 | h1
  · rw [h1] at h; cases h
  · exact absurd h1 hne
  · exact h1

/-- Little-endian decimal digits of a natural number (empty for 0). -/
def natDigitsRev : Nat → List Nat
  | 0 => []
  | n + 1 => ((n + 1) % 10) :: natDigitsRev ((n + 1) / 10)
decreasing_by exact Nat.div_lt_self (Nat.succ_pos n) (by omega)

/-- Go `strconv.FormatUint(n, 10)`: the decimal ASCII representation of `n`. -/
def formatUint (n : Nat) : Bytes :=
  if n = 0 then [48] else (natDigitsRev n).reverse.map (fun d => 48 + d)

/-- Digit-accumulating loop of decimal parsing; fails on a non-digit byte or
when the accumulated value would no longer fit in a `uint64`. -/
def parseDigits : List Nat → Nat → Option Nat
  | [], acc => some acc
  | c :: rest, acc =>
    if 48 ≤ c ∧ c ≤ 57 then
      if acc * 10 + (c - 48) < 2 ^ 64 then parseDigits rest (acc * 10 + (c - 48))
      else none
    else none

/-- Go `strconv.ParseUint(s, 10, 64)`: parses a decimal `uint64`, failing on
the empty string, a non-digit byte, or overflow. -/
def parseUint (s : Bytes) : Option Nat :=
  if s = [] then none else parseDigits s 0

/-- The decimal fold that `parseDigits` implements. -/
def digitsVal (acc : Nat) (ds : List Nat) : Nat :=
  ds.foldl (fun a d => a * 10 + d) acc

theorem natDigitsRev_lt (n : Nat) : ∀ d ∈ natDigitsRev n, d < 10 := by
  induction n using Nat.strong_induction_on with
  | _ n ih =>
    match n with
    | 0 => simp [natDigitsRev]
    | m + 1 =>
      intro d hd
      rw [natDigitsRev] at hd
      rcases List.mem_cons.mp hd with h | h
      · subst h
        exact Nat.mod_lt _ (by omega)
      · exact ih ((m + 1) / 10) (Nat.div_lt_self (Nat.succ_pos m) (by omega)) d h

theorem digitsVal_append (acc : Nat) (ds : List Nat) (d : Nat) :
    digitsVal acc (ds ++ [d]) = digitsVal acc ds * 10 + d := by
  simp [digitsVal]

theorem digitsVal_rev_natDigitsRev (n : Nat) : ∀ acc : Nat,
    digitsVal acc (natDigitsRev n).reverse = acc * 10 ^ (natDigitsRev n).length + n := by
  induction n using Nat.strong_induction_on with
  | _ n ih =>
    match n with
    | 0 => simp [natDigitsRev, digitsVal]
    | m + 1 =>
      intro acc
      rw [natDigitsRev]
      simp only [List.reverse_cons, List.length_cons]
      rw [digitsVal_append, ih ((m + 1) / 10) (Nat.div_lt_self (Nat.succ_pos m) (by omega)) acc]
      rw [Nat.add_mul, Nat.pow_succ]
      have := Nat.div_add_mod (m + 1) 10
      ring_nf
      omega

theorem digitsVal_le (acc : Nat) (ds : List Nat) : acc ≤ digitsVal acc ds := by
  induction ds generalizing acc with
  | nil => simp [digitsVal]
  | cons d rest ih =>
    have h1 : acc ≤ acc * 10 + d := by omega
    exact Nat.le_trans h1 (ih (acc * 10 + d))

theorem parseDigits_of_digits (ds : List Nat) : ∀ acc : Nat, (∀ d ∈ ds, d < 10) →
    digitsVal acc ds < 2 ^ 64 →
    parseDigits (ds.map (fun d => 48 + d)) acc = some (digitsVal acc ds) := by
  induction ds with
  | nil =>
    intro acc _ _
    simp [parseDigits, digitsVal]
  | cons d rest ih =>
    intro acc hds hlt
    have hd : d < 10 := hds d (List.mem_cons_self d rest)
    have hstep : digitsVal acc (d :: rest) = digitsVal (acc * 10 + d) rest := by
      simp [digitsVal]
    rw [hstep] at hlt
    have hbound : acc * 10 + d < 2 ^ 64 :=
      Nat.lt_of_le_of_lt (digitsVal_le (acc * 10 + d) rest) hlt
    simp only [List.map_cons, parseDigits]
    have hdig : 48 ≤ 48 + d ∧ 48 + d ≤ 57 := by omega
    rw [if_pos hdig]
    have hsub : 48 + d - 48 = d := by omega
    rw [hsub, if_pos hbound, ih (acc * 10 + d) (fun x hx => hds x (List.mem_cons_of_mem d hx)) hlt,
      hstep]

theorem parseUint_formatUint (n : Nat) (h : n < 2 ^ 64) : parseUint (formatUint n) = some n := by
  rcases Nat.eq_zero_or_pos n with h0 | h0
  · subst h0
    rfl
  · have hne : formatUint n ≠ [] := by
      unfold formatUint
      rw [if_neg (by omega)]
      intro hc
      have : natDigitsRev n ≠ [] := by
        match n, h0 with
        | m + 1, _ => rw [natDigitsRev]; simp
      simp only [List.map_eq_nil_iff, List.reverse_eq_nil_iff] at hc
      exact this hc
    unfold parseUint
    rw [if_neg hne]
    unfold formatUint
    rw [if_neg (by omega)]
    have hval := digitsVal_rev_natDigitsRev n 0
    simp only [Nat.zero_mul, Nat.zero_add] at hval
    have hdig : ∀ d ∈ (natDigitsRev n).reverse, d < 10 := by
      intro d hd
      exact natDigitsRev_lt n d (List.mem_reverse.mp hd)
    rw [parseDigits_of_digits (natDigitsRev n).reverse 0 hdig (by rw [hval]; exact h), hval]

/-- Modelled from the spec: the embedded storage engine (goleveldb, an
external collaborator per spec sections 1 and 6) is a durable mapping from
byte-string keys to byte-string values with byte-lexicographic iteration
order.  It is represented as an association list kept sorted by `keyLt`. -/
structure DB where
  entries : List (Bytes × Bytes)
deriving DecidableEq

/-- The empty engine state (a freshly created database). -/
def DB.empty : DB := ⟨[]⟩

/-- Engine lookup: the value stored under a key, if any. -/
def dbLookup : List (Bytes × Bytes) → Bytes → Option Bytes
  | [], _ => none
  | (k', v') :: rest, k => if k = k' then some v' else dbLookup rest k

/-- Engine insert/overwrite preserving the sorted order of entries. -/
def dbInsert : List (Bytes × Bytes) → Bytes → Bytes → List (Bytes × Bytes)
  | [], k, v => [(k, v)]
  | (k', v') :: rest, k, v =>
    match bytesCompare k k' with
    | Ordering.lt => (k, v) :: (k', v') :: rest
    | Ordering.eq => (k, v) :: rest
    | Ordering.gt => (k', v') :: dbInsert rest k v

/-- Engine delete: removes the entry for a key (the first match). -/
def dbRemove : List (Bytes × Bytes) → Bytes → List (Bytes × Bytes)
  | [], _ => []
  | (k', v') :: rest, k => if k = k' then rest else (k', v') :: dbRemove rest k

/-- Engine `Get`. -/
def DB.get (db : DB) (k : Bytes) : Option Bytes := dbLookup db.entries k

/-- Engine `Has`. -/
def DB.has (db : DB) (k : Bytes) : Bool := (db.get k).isSome

/-- Engine `Put`. -/
def DB.put (db : DB) (k v : Bytes) : DB := ⟨dbInsert db.entries k v⟩

/-- Engine `Delete`. -/
def DB.delete (db : DB) (k : Bytes) : DB := ⟨dbRemove db.entries k⟩

/-- The keys of the engine in iteration (ascending lexicographic) order. -/
def DB.keys (db : DB) : List Bytes := db.entries.map Prod.fst

/-- Invariant of the engine model: entries are strictly sorted by key. -/
def DBSorted (db : DB) : Prop := List.Pairwise (fun p q => keyLt p.1 q.1 = true) db.entries

instance (db : DB) : Decidable (DBSorted db) := by
  unfold DBSorted
  infer_instance

/-- Reserved key `__key_for_count__` (kvstore.go line 21); its bytes spell
that ASCII string. -/
def keyForCount : Bytes :=
  [95, 95, 107, 101, 121, 95, 102, 111, 114, 95, 99, 111, 117, 110, 116, 95, 95]

/-- Reserved key `__key_for_sequence__` (kvstore.go line 24); its bytes spell
that ASCII string. -/
def keyForSequence : Bytes :=
  [95, 95, 107, 101, 121, 95, 102, 111, 114, 95, 115, 101, 113, 117, 101, 110, 99, 101, 95, 95]

/-- The package-level list of reserved keys (kvstore.go lines 27-33). -/
def reservedlKeys : List Bytes := [keyForCount, keyForSequence]

/-- Source `isReservedlKey`: whether a key equals one of the reserved keys. -/
def isReservedlKey (key : Bytes) : Bool := reservedlKeys.any (fun r => key = r)

/-- Source `KVStore`: wraps one engine instance (path and lock omitted: the
model is single-threaded and path-independent). -/
structure KVStore where
  db : DB
deriving DecidableEq

/-- A `KVStore` over a fresh (empty) engine. -/
def KVStore.empty : KVStore := ⟨DB.empty⟩

/-- Source `KVStore.Has`: engine existence check, errors treated as absence. -/
def KVStore.Has (kv : KVStore) (key : Bytes) : Bool := kv.db.has key

/-- Source `KVStore.count`: reads the count cell and parses it as a decimal
`uint64`; any failure yields 0. -/
def KVStore.count (kv : KVStore) : Nat :=
  if ¬ kv.Has keyForCount then 0
  else
    match kv.db.get keyForCount with
    | none => 0
    | some value =>
      match parseUint value with
      | none => 0
      | some c => c

/-- Source `KVStore.Count`: the locked public read of `count`. -/
def KVStore.Count (kv : KVStore) : Nat := kv.count

/-- Source `KVStore.Put`: rejects reserved keys; overwrites an existing key
directly; otherwise writes the key and the incremented count cell in one
batch.  Returns the new state and the error, if any (a returned error means
the state is unchanged). -/
def KVStore.Put (kv : KVStore) (key value : Bytes) : KVStore × Option String :=
  if isReservedlKey key then (kv, some "Not allow put reserved key")
  else if kv.Has key then (⟨kv.db.put key value⟩, none)
  else
    (⟨(kv.db.put key value).put keyForCount (formatUint ((kv.count + 1) % 2 ^ 64))⟩, none)

/-- Source `KVStore.Get`: rejects reserved keys, then engine lookup (the
defensive copy is identity in a pure model). -/
def KVStore.Get (kv : KVStore) (key : Bytes) : Except String Bytes :=
  if isReservedlKey key then Except.error "Not allow get reserved key"
  else
    match kv.db.get key with
    | some value => Except.ok value
    | none => Except.error "leveldb: not found"

/-- Source `KVStore.Delete`: rejects reserved keys; if the key exists,
removes it and writes the decremented count cell (uint64 arithmetic) in one
batch; otherwise reports that the key does not exist. -/
def KVStore.Delete (kv : KVStore) (key : Bytes) : KVStore × Option String :=
  if isReservedlKey key then (kv, some "Not allow delete reserved key")
  else if kv.Has key then
    (⟨(kv.db.delete key).put keyForCount (formatUint ((kv.count + (2 ^ 64 - 1)) % 2 ^ 64))⟩, none)
  else (kv, some "Key not exist")

/-- The iterator loop body shared by `Next` and `Prev` (kvstore.go lines
150-159 and 180-189): walk the iteration sequence, skip the cursor key and
reserved keys, and collect until `n` keys have been gathered. -/
def collectKeys : List Bytes → Bytes → Nat → List Bytes
  | [], _, _ => []
  | x :: rest, key, n =>
    if n = 0 then []
    else if x = key ∨ isReservedlKey x then collectKeys rest key n
    else x :: collectKeys rest key (n - 1)

/-- Source `KVStore.Next`: seek to the first key not below the cursor (or
the first key for a nil/empty cursor) and collect forward. -/
def KVStore.Next (kv : KVStore) (key : Bytes) (n : Int) : List Bytes :=
  collectKeys
    (if key = [] then kv.db.keys else kv.db.keys.dropWhile (fun x => keyLt x key))
    key n.toNat

/-- Source `KVStore.Prev`: seek to the first key not below the cursor (or
the last key for a nil/empty cursor) and collect backward. -/
def KVStore.Prev (kv : KVStore) (key : Bytes) (n : Int) : List Bytes :=
  collectKeys
    (if key = [] then kv.db.keys.reverse
     else
       match kv.db.keys.dropWhile (fun x => keyLt x key) with
       | [] => []
       | x :: _ => x :: (kv.db.keys.takeWhile (fun y => keyLt y key)).reverse)
    key n.toNat

/-- Source `KVStore.currentSequence`: reads and parses the sequence cell. -/
def KVStore.currentSequence (kv : KVStore) : Nat :=
  if ¬ kv.Has keyForSequence then 0
  else
    match kv.db.get keyForSequence with
    | none => 0
    | some value =>
      match parseUint value with
      | none => 0
      | some s => s

/-- Source `KVStore.NextSequence`: increments (uint64) and persists the
sequence counter, returning the new value. -/
def KVStore.NextSequence (kv : KVStore) : KVStore × Nat :=
  (⟨kv.db.put keyForSequence (formatUint ((kv.currentSequence + 1) % 2 ^ 64))⟩,
    (kv.currentSequence + 1) % 2 ^ 64)

/-- A store operation, for stating reachability from the empty store. -/
inductive StoreOp where
  | put (key value : Bytes) : StoreOp
  | del (key : Bytes) : StoreOp
  | nextSeq : StoreOp
deriving DecidableEq

/-- State reached by one operation (errors leave the state as returned by
the operation itself, which for `KVStore` mutators is the prior state). -/
def applyOp (kv : KVStore) : StoreOp → KVStore
  | StoreOp.put key value => (kv.Put key value).1
  | StoreOp.del key => (kv.Delete key).1
  | StoreOp.nextSeq => kv.NextSequence.1

/-- State reached from the empty store by a sequence of operations. -/
def runOps (ops : List StoreOp) : KVStore :=
  ops.foldl applyOp KVStore.empty

/-- The non-reserved keys currently present, in iteration order. -/
def nonReservedKeys (kv : KVStore) : List Bytes :=
  kv.db.keys.filter (fun k => ! isReservedlKey k)

theorem dbLookup_insert_self : ∀ (es : List (Bytes × Bytes)) (k v : Bytes),
    dbLookup (dbInsert es k v) k = some v
  | [], k, v => by simp [dbInsert, dbLookup]
  | (k', v') :: rest, k, v => by
    simp only [dbInsert]
    rcases h : bytesCompare k k' with _ | _ | _
    · simp [dbLookup]
    · simp [dbLookup]
    · have hne : k ≠ k' := by
        intro he
        subst he
        simp [bytesCompare_self] at h
      simp [dbLookup, hne, dbLookup_insert_self rest k v]

theorem dbLookup_insert_ne : ∀ (es : List (Bytes × Bytes)) (k v k' : Bytes), k' ≠ k →
    dbLookup (dbInsert es k v) k' = dbLookup es k'
  | [], k, v, k', hne => by simp [dbInsert, dbLookup, hne]
  | (k0, v0) :: rest, k, v, k', hne => by
    simp only [dbInsert]
    rcases h : bytesCompare k k0 with _ | _ | _
    · simp [dbLookup, hne]
    · have hk : k = k0 := (bytesCompare_eq_iff k k0).mp h
      subst hk
      simp [dbLookup, hne]
    · by_cases h0 : k' = k0
      · simp [dbLookup, h0]
      · simp [dbLookup, h0, dbLookup_insert_ne rest k v k' hne]

theorem dbLookup_none_iff : ∀ (es : List (Bytes × Bytes)) (k : Bytes),
    dbLookup es k = none ↔ k ∉ es.map Prod.fst
  | [], k => by simp [dbLookup]
  | (k', v') :: rest, k => by
    by_cases h : k = k'
    · subst h
      simp [dbLookup]
    · simp [dbLookup, h, dbLookup_none_iff rest k]

theorem dbLookup_remove_ne : ∀ (es : List (Bytes × Bytes)) (k k' : Bytes), k' ≠ k →
    dbLookup (dbRemove es k) k' = dbLookup es k'
  | [], k, k', _ => by simp [dbRemove]
  | (k0, v0) :: rest, k, k', hne => by
    simp only [dbRemove]
    by_cases h : k = k0
    · subst h
      rw [if_pos rfl]
      simp [dbLookup, hne]
    · rw [if_neg h]
      by_cases h0 : k' = k0
      · simp [dbLookup, h0]
      · simp [dbLookup, h0, dbLookup_remove_ne rest k k' hne]

theorem mem_dbInsert : ∀ (es : List (Bytes × Bytes)) (k v : Bytes) (p : Bytes × Bytes),
    p ∈ dbInsert es k v → p = (k, v) ∨ p ∈ es
  | [], k, v, p, hp => by simpa [dbInsert] using hp
  | (k0, v0) :: rest, k, v, p, hp => by
    simp only [dbInsert] at hp
    rcases h : bytesCompare k k0 with _ | _ | _ <;> rw [h] at hp
    · rcases List.mem_cons.mp hp with h1 | h1
      · exact Or.inl h1
      · exact Or.inr h1
    · rcases List.mem_cons.mp hp with h1 | h1
      · exact Or.inl h1
      · exact Or.inr (List.mem_cons_of_mem _ h1)
    · rcases List.mem_cons.mp hp with h1 | h1
      · exact Or.inr (by simp [h1])
      · rcases mem_dbInsert rest k v p h1 with h2 | h2
        · exact Or.inl h2
        · exact Or.inr (List.mem_cons_of_mem _ h2)

theorem dbInsert_sorted : ∀ (es : List (Bytes × Bytes)) (k v : Bytes),
    List.Pairwise (fun p q => keyLt p.1 q.1 = true) es →
    List.Pairwise (fun p q => keyLt p.1 q.1 = true) (dbInsert es k v)
  | [], k, v, _ => by simp [dbInsert]
  | (k0, v0) :: rest, k, v, hs => by
    rcases List.pairwise_cons.mp hs with ⟨h0, hrest⟩
    simp only [dbInsert]
    rcases h : bytesCompare k k0 with _ | _ | _
    · refine List.pairwise_cons.mpr ⟨?_, hs⟩
      intro q hq
      rcases List.mem_cons.mp hq with h1 | h1
      · subst h1
        simp [keyLt, h]
      · exact keyLt_trans _ _ _ (by simp [keyLt, h]) (h0 q h1)
    · have hk : k = k0 := (bytesCompare_eq_iff k k0).mp h
      subst hk
      exact List.pairwise_cons.mpr ⟨h0, hrest⟩
    · refine List.pairwise_cons.mpr ⟨?_, dbInsert_sorted rest k v hrest⟩
      intro q hq
      rcases mem_dbInsert rest k v q hq with h1 | h1
      · subst h1
        simp [keyLt, (bytesCompare_gt_iff k k0).mp h]
      · exact h0 q h1

theorem dbRemove_sublist : ∀ (es : List (Bytes × Bytes)) (k : Bytes),
    (dbRemove es k).Sublist es
  | [], _ => List.Sublist.refl []
  | (k0, v0) :: rest, k => by
    simp only [dbRemove]
    by_cases h : k = k0
    · simp only [h, if_pos rfl]
      exact List.sublist_cons_self (k0, v0) rest
    · simp only [if_neg h]
      exact List.Sublist.cons₂ (k0, v0) (dbRemove_sublist rest k)

theorem dbRemove_sorted (es : List (Bytes × Bytes)) (k : Bytes)
    (hs : List.Pairwise (fun p q => keyLt p.1 q.1 = true) es) :
    List.Pairwise (fun p q => keyLt p.1 q.1 = true) (dbRemove es k) :=
  hs.sublist (dbRemove_sublist es k)

theorem dbLookup_remove_self (es : List (Bytes × Bytes)) (k : Bytes)
    (hs : List.Pairwise (fun p q => keyLt p.1 q.1 = true) es) :
    dbLookup (dbRemove es k) k = none := by
  induction es with
  | nil => simp [dbRemove, dbLookup]
  | cons p rest ih =>
    rcases p with ⟨k0, v0⟩
    rcases List.pairwise_cons.mp hs with ⟨h0, hrest⟩
    simp only [dbRemove]
    by_cases h : k = k0
    · subst h
      rw [if_pos rfl]
      rw [dbLookup_none_iff]
      intro hmem
      rcases List.mem_map.mp hmem with ⟨q, hq, hq1⟩
      have := h0 q hq
      rw [hq1] at this
      simp [keyLt_irrefl] at this
    · rw [if_neg h]
      simp [dbLookup, h, ih hrest]

theorem keys_dbInsert_of_some : ∀ (es : List (Bytes × Bytes)) (k v : Bytes),
    List.Pairwise (fun p q => keyLt p.1 q.1 = true) es →
    (dbLookup es k).isSome →
    (dbInsert es k v).map Prod.fst = es.map Prod.fst
  | [], k, v, _, hl => by simp [dbLookup] at hl
  | (k0, v0) :: rest, k, v, hs, hl => by
    rcases List.pairwise_cons.mp hs with ⟨h0, hrest⟩
    simp only [dbInsert]
    rcases h : bytesCompare k k0 with _ | _ | _
    · exfalso
      by_cases he : k = k0
      · subst he
        simp [bytesCompare_self] at h
      · simp only [dbLookup, if_neg he] at hl
        have hmem : k ∈ rest.map Prod.fst := by
          by_contra hc
          rw [(dbLookup_none_iff rest k).mpr hc] at hl
          simp at hl
        rcases List.mem_map.mp hmem with ⟨q, hq, hq1⟩
        have hlt := h0 q hq
        rw [hq1] at hlt
        have := keyLt_trans k k0 k (by simp [keyLt, h]) hlt
        simp [keyLt_irrefl] at this
    · simp [(bytesCompare_eq_iff k k0).mp h]
    · have hne : k ≠ k0 := by
        intro he
        subst he
        simp [bytesCompare_self] at h
      simp only [dbLookup, if_neg hne] at hl
      simp [keys_dbInsert_of_some rest k v hrest hl]

theorem filterLength_dbInsert_of_none (p : Bytes → Bool) :
    ∀ (es : List (Bytes × Bytes)) (k v : Bytes), dbLookup es k = none →
    (((dbInsert es k v).map Prod.fst).filter p).length =
      ((es.map Prod.fst).filter p).length + (if p k then 1 else 0)
  | [], k, v, _ => by
    simp only [dbInsert, List.map_cons, List.map_nil, List.filter]
    cases h : p k <;> simp [h]
  | (k0, v0) :: rest, k, v, hl => by
    have hne : k ≠ k0 := by
      intro he
      subst he
      simp [dbLookup] at hl
    simp only [dbLookup, if_neg hne] at hl
    simp only [dbInsert]
    rcases h : bytesCompare k k0 with _ | _ | _
    · simp only [List.map_cons, List.filter_cons]
      cases hp : p k <;> cases hp0 : p k0 <;> simp [hp, hp0] <;> omega
    · exact absurd ((bytesCompare_eq_iff k k0).mp h) hne
    · simp only [List.map_cons, List.filter_cons]
      have ih := filterLength_dbInsert_of_none p rest k v hl
      cases hp0 : p k0 <;> cases hp : p k <;> simp [hp0, hp, ih] <;> omega

theorem filterLength_dbRemove_of_some (p : Bytes → Bool) :
    ∀ (es : List (Bytes × Bytes)) (k : Bytes),
    List.Pairwise (fun p q => keyLt p.1 q.1 = true) es →
    (dbLookup es k).isSome →
    (((dbRemove es k).map Prod.fst).filter p).length + (if p k then 1 else 0) =
      ((es.map Prod.fst).filter p).length
  | [], k, _, hl => by simp [dbLookup] at hl
  | (k0, v0) :: rest, k, hs, hl => by
    rcases List.pairwise_cons.mp hs with ⟨h0, hrest⟩
    simp only [dbRemove]
    by_cases h : k = k0
    · subst h
      rw [if_pos rfl]
      simp only [List.map_cons, List.filter_cons]
      cases hp : p k <;> simp [hp] <;> omega
    · rw [if_neg h]
      simp only [dbLookup, if_neg h] at hl
      simp only [List.map_cons, List.filter_cons]
      have ih := filterLength_dbRemove_of_some p rest k hrest hl
      cases hp0 : p k0 <;> cases hp : p k <;> simp [hp0, hp] at ih ⊢ <;> omega

theorem keys_pairwise (db : DB) (hs : DBSorted db) :
    List.Pairwise (fun a b => keyLt a b = true) db.keys := by
  unfold DB.keys
  rw [List.pairwise_map]
  exact hs

theorem sorted_dropWhile_eq_filter (k : Bytes) :
    ∀ l : List Bytes, List.Pairwise (fun a b => keyLt a b = true) l →
    l.dropWhile (fun x => keyLt x k) = l.filter (fun x => ! keyLt x k)
  | [], _ => rfl
  | x :: rest, hs => by
    rcases List.pairwise_cons.mp hs with ⟨h0, hrest⟩
    cases hx : keyLt x k
    · simp only [List.dropWhile_cons, List.filter_cons, hx]
      simp only [Bool.false_eq_true, if_false, Bool.not_false, if_true]
      congr 1
      symm
      rw [List.filter_eq_self]
      intro y hy
      cases hy2 : keyLt y k
      · simp
      · exact absurd (keyLt_trans x y k (h0 y hy) hy2) (by simp [hx])
    · simp only [List.dropWhile_cons, List.filter_cons, hx]
      simp only [if_true, Bool.not_true, Bool.false_eq_true, if_false]
      exact sorted_dropWhile_eq_filter k rest hrest

theorem sorted_takeWhile_eq_filter (k : Bytes) :
    ∀ l : List Bytes, List.Pairwise (fun a b => keyLt a b = true) l →
    l.takeWhile (fun x => keyLt x k) = l.filter (fun x => keyLt x k)
  | [], _ => rfl
  | x :: rest, hs => by
    rcases List.pairwise_cons.mp hs with ⟨h0, hrest⟩
    cases hx : keyLt x k
    · simp only [List.takeWhile_cons, List.filter_cons, hx]
      simp only [Bool.false_eq_true, if_false]
      symm
      rw [List.filter_eq_nil_iff]
      intro y hy hy2
      exact absurd (keyLt_trans x y k (h0 y hy) hy2) (by simp [hx])
    · simp only [List.takeWhile_cons, List.filter_cons, hx]
      simp only [if_true]
      rw [sorted_takeWhile_eq_filter k rest hrest]

theorem sorted_dropWhile_of_mem (k : Bytes) :
    ∀ l : List Bytes, List.Pairwise (fun a b => keyLt a b = true) l → k ∈ l →
    l.dropWhile (fun x => keyLt x k) = k :: l.filter (fun x => keyLt k x)
  | [], _, hm => absurd hm (List.not_mem_nil k)
  | x :: rest, hs, hm => by
    rcases List.pairwise_cons.mp hs with ⟨h0, hrest⟩
    cases hx : keyLt x k
    · rcases List.mem_cons.mp hm with h | h
      · subst h
        simp only [List.dropWhile_cons, List.filter_cons, keyLt_irrefl]
        simp only [Bool.false_eq_true, if_false]
        congr 1
        symm
        rw [List.filter_eq_self]
        intro y hy
        exact h0 y hy
      · exact absurd (h0 k h) (by simp [hx])
    · have hne : x ≠ k := keyLt_ne x k hx
      have hk : k ∈ rest := by
        rcases List.mem_cons.mp hm with h | h
        · exact absurd h.symm hne
        · exact h
      simp only [List.dropWhile_cons, List.filter_cons, hx, keyLt_asymm x k hx]
      simp only [if_true, Bool.false_eq_true, if_false]
      exact sorted_dropWhile_of_mem k rest hrest hk

/-- The filter implemented by the iteration loops: keep keys other than the
cursor that are not reserved. -/
def keepKey (key x : Bytes) : Bool := ! (decide (x = key) || isReservedlKey x)

theorem collectKeys_eq_filter_take :
    ∀ (seq : List Bytes) (key : Bytes) (n : Nat),
    collectKeys seq key n = (seq.filter (keepKey key)).take n
  | [], _, _ => by simp [collectKeys]
  | x :: rest, key, n => by
    rw [collectKeys]
    by_cases hn : n = 0
    · subst hn
      simp
    · rw [if_neg hn, List.filter_cons]
      by_cases hx : x = key ∨ isReservedlKey x = true
      · rw [if_pos hx]
        have : keepKey key x = false := by
          unfold keepKey
          rcases hx with h | h <;> simp [h]
        rw [this]
        simp only [Bool.false_eq_true, if_false]
        exact collectKeys_eq_filter_take rest key n
      · rw [if_neg hx]
        push_neg at hx
        have : keepKey key x = true := by
          unfold keepKey
          simp [hx.1, hx.2]
        rw [this, if_pos rfl]
        match n, hn with
        | m + 1, _ =>
          rw [List.take_succ_cons]
          simp only [Nat.add_sub_cancel]
          rw [collectKeys_eq_filter_take rest key m]

/-- Source `TTLInfo` (the TTL record): key, creation time, time to live and
expiry timestamp, all times in unix seconds. -/
structure TTLInfo where
  Key : Bytes
  CreateTime : Int
  TTL : Int
  ExpiredTime : Int
deriving DecidableEq

/-- Source `TTLInfo.Less`: order records by expiry time, breaking ties by
lexicographic key comparison. -/
def TTLInfo.Less (info other : TTLInfo) : Bool :=
  if info.ExpiredTime < other.ExpiredTime then true
  else if info.ExpiredTime = other.ExpiredTime ∧ bytesCompare info.Key other.Key = Ordering.lt
    then true
  else false

theorem TTLInfo.Less_irrefl (info : TTLInfo) : TTLInfo.Less info info = false := by
  simp [TTLInfo.Less, bytesCompare_self]

/-- Go `int64` addition, wrapping modulo `2 ^ 64`. -/
def addInt64 (x y : Int) : Int := (x + y + 2 ^ 63) % 2 ^ 64 - 2 ^ 63

theorem addInt64_eq (x y : Int) (h0 : -(2 ^ 63) ≤ x + y) (h1 : x + y < 2 ^ 63) :
    addInt64 x y = x + y := by
  unfold addInt64
  have : (x + y + 2 ^ 63) % 2 ^ 64 = x + y + 2 ^ 63 := Int.emod_eq_of_lt (by omega) (by omega)
  omega

/-- Modelled from the spec: record serialization (encoding/json in the
source, an external library).  Per the spec's external-interface contract the
encoding is self-describing and must round-trip exactly; it is modelled as a
length-prefixed sequence (key length, key bytes, then the three integer
fields mapped injectively into naturals). -/
def encInt (x : Int) : Nat := if 0 ≤ x then 2 * x.toNat else 2 * (-x).toNat + 1

/-- Inverse of `encInt`. -/
def decInt (n : Nat) : Int := if n % 2 = 0 then (n / 2 : Nat) else -((n / 2 : Nat) : Int)

theorem decInt_encInt (x : Int) : decInt (encInt x) = x := by
  unfold encInt decInt
  by_cases h : 0 ≤ x
  · rw [if_pos h]
    have h2 : 2 * x.toNat % 2 = 0 := by omega
    rw [if_pos h2]
    have h3 : 2 * x.toNat / 2 = x.toNat := by omega
    rw [h3]
    exact Int.toNat_of_nonneg h
  · rw [if_neg h]
    have h2 : ¬ (2 * (-x).toNat + 1) % 2 = 0 := by omega
    rw [if_neg h2]
    have h3 : (2 * (-x).toNat + 1) / 2 = (-x).toNat := by omega
    rw [h3]
    have h4 : ((-x).toNat : Int) = -x := Int.toNat_of_nonneg (by omega)
    omega

/-- Modelled from the spec: `json.Marshal` of a `TTLInfo` record. -/
def encodeInfo (info : TTLInfo) : Bytes :=
  info.Key.length :: (info.Key ++ [encInt info.CreateTime, encInt info.TTL,
    encInt info.ExpiredTime])

/-- Modelled from the spec: `json.Unmarshal` into a `TTLInfo` record; fails
on any byte string that is not an encoding of a record. -/
def decodeInfo (v : Bytes) : Option TTLInfo :=
  match v with
  | [] => none
  | len :: rest =>
    match rest.drop len with
    | [a, b, c] => some ⟨rest.take len, decInt a, decInt b, decInt c⟩
    | _ => none

theorem decodeInfo_encodeInfo (info : TTLInfo) : decodeInfo (encodeInfo info) = some info := by
  unfold encodeInfo decodeInfo
  simp only [List.drop_left, List.take_left]
  rw [decInt_encInt, decInt_encInt, decInt_encInt]

/-- Modelled from the spec: the Expiration Index (the external skiplist
library in the source) keeps records ordered by `(expiredTime, key)`; insert
places a record at its ordered position. -/
def skInsert : List TTLInfo → TTLInfo → List TTLInfo
  | [], info => [info]
  | x :: rest, info =>
    if TTLInfo.Less info x then info :: x :: rest else x :: skInsert rest info

/-- Modelled from the spec: Expiration Index delete removes the (unique)
entry whose `(expiredTime, key)` ordering position matches the record. -/
def skDelete : List TTLInfo → TTLInfo → List TTLInfo
  | [], _ => []
  | x :: rest, info =>
    if TTLInfo.Less x info = false ∧ TTLInfo.Less info x = false then rest
    else x :: skDelete rest info

/-- Source `TTLChecker`: the in-memory Expiration Index (front-to-back
ordered list of records) plus the dedicated TTL record store.  The callback,
stop channel and timer are concurrency plumbing; the sweep's callback
invocations are reified as the event trace returned by `checkExpired`. -/
structure TTLChecker where
  skList : List TTLInfo
  db : KVStore
deriving DecidableEq

/-- A `TTLChecker` over a fresh store with an empty index. -/
def TTLChecker.empty : TTLChecker := ⟨[], KVStore.empty⟩

/-- Source `TTLChecker.GetInfo`: read the persisted record bytes for a key
and deserialize them. -/
def TTLChecker.GetInfo (c : TTLChecker) (key : Bytes) : Except String TTLInfo :=
  match c.db.Get key with
  | Except.error e => Except.error e
  | Except.ok value =>
    match decodeInfo value with
    | none => Except.error "json unmarshal failed"
    | some info => Except.ok info

/-- Source `TTLChecker.addIndex`: insert into the index and, when asked,
persist the serialized record (the store write can fail; the index insertion
has already happened by then, as in the source). -/
def TTLChecker.addIndex (c : TTLChecker) (info : TTLInfo) (writeDB : Bool) :
    TTLChecker × Option String :=
  if writeDB then
    (⟨skInsert c.skList info, (c.db.Put info.Key (encodeInfo info)).1⟩,
      (c.db.Put info.Key (encodeInfo info)).2)
  else (⟨skInsert c.skList info, c.db⟩, none)

/-- Source `TTLChecker.deleteIndex`: remove from the index and delete the
record from the store, propagating the store's error. -/
def TTLChecker.deleteIndex (c : TTLChecker) (info : TTLInfo) :
    TTLChecker × Option String :=
  (⟨skDelete c.skList info, (c.db.Delete info.Key).1⟩, (c.db.Delete info.Key).2)

/-- Source `TTLChecker.SetTTL`: validate the arguments, no-op when an
identical active record exists, otherwise drop any prior record from the
index, then insert and persist the new record with
`ExpiredTime = CreateTime + TTL` (int64 addition). -/
def TTLChecker.SetTTL (c : TTLChecker) (key : Bytes) (createTime ttl : Int) :
    TTLChecker × Option String :=
  if createTime ≤ 0 ∨ ttl ≤ 0 then (c, some "createTime or ttl invalid")
  else
    match c.GetInfo key with
    | Except.ok info =>
      if info.CreateTime = createTime ∧ info.TTL = ttl then (c, none)
      else
        (c.deleteIndex info).1.addIndex ⟨key, createTime, ttl, addInt64 createTime ttl⟩ true
    | Except.error _ =>
      c.addIndex ⟨key, createTime, ttl, addInt64 createTime ttl⟩ true

/-- Source `TTLChecker.Delete`: look up the active record and remove it from
index and store. -/
def TTLChecker.Delete (c : TTLChecker) (key : Bytes) : TTLChecker × Option String :=
  match c.GetInfo key with
  | Except.error e => (c, some e)
  | Except.ok info => c.deleteIndex info

/-- Source `TTLChecker.GetKeyCount`: the TTL record store's count. -/
def TTLChecker.GetKeyCount (c : TTLChecker) : Nat := c.db.Count

/-- One observable action of a sweep pass: a callback invocation or an
index/store removal for a record. -/
inductive SweepEvent where
  | callback (info : TTLInfo) : SweepEvent
  | removeIndex (info : TTLInfo) : SweepEvent
deriving DecidableEq

/-- The sweep loop of `checkExpired` (part_000 lines 105-116): walk the
front-to-back chain of index elements; stop at the first unexpired record;
for an expired record invoke the callback and then delete it from index and
store.  The chain argument is the iterator (`element.Next()` of a deleted
skiplist node still reaches its old successor). -/
def checkExpiredLoop (now : Int) : List TTLInfo → TTLChecker → List SweepEvent × TTLChecker
  | [], c => ([], c)
  | info :: rest, c =>
    if info.ExpiredTime ≥ now then ([], c)
    else
      (SweepEvent.callback info :: SweepEvent.removeIndex info ::
        (checkExpiredLoop now rest (c.deleteIndex info).1).1,
       (checkExpiredLoop now rest (c.deleteIndex info).1).2)

/-- Source `TTLChecker.checkExpired`: one sweep pass at time `now`. -/
def TTLChecker.checkExpired (c : TTLChecker) (now : Int) : List SweepEvent × TTLChecker :=
  checkExpiredLoop now c.skList c

/-- Source `TTLCache`: the value store composed with the TTL manager. -/
structure TTLCache where
  dataStore : KVStore
  ttlChecker : TTLChecker
deriving DecidableEq

/-- A `TTLCache` over fresh stores. -/
def TTLCache.empty : TTLCache := ⟨KVStore.empty, TTLChecker.empty⟩

/-- Source `TTLCache.Put`: write the value to the value store, then register
the TTL (`now` stands for `time.Now().Unix()`); the first error aborts. -/
def TTLCache.Put (c : TTLCache) (key value : Bytes) (ttl now : Int) :
    TTLCache × Option String :=
  match (c.dataStore.Put key value).2 with
  | some e => (⟨(c.dataStore.Put key value).1, c.ttlChecker⟩, some e)
  | none =>
    (⟨(c.dataStore.Put key value).1, (c.ttlChecker.SetTTL key now ttl).1⟩,
      (c.ttlChecker.SetTTL key now ttl).2)

/-- Source `TTLCache.Get`: read from the value store. -/
def TTLCache.Get (c : TTLCache) (key : Bytes) : Except String Bytes :=
  c.dataStore.Get key

/-- Source `TTLCache.Count`: the value store's key count. -/
def TTLCache.Count (c : TTLCache) : Nat := c.dataStore.count

theorem collectKeys_zero (seq : List Bytes) (key : Bytes) : collectKeys seq key 0 = [] := by
  cases seq <;> simp [collectKeys]

theorem Has_iff_mem_keys (kv : KVStore) (key : Bytes) :
    kv.Has key = true ↔ key ∈ kv.db.keys := by
  unfold KVStore.Has DB.has DB.get DB.keys
  constructor
  · intro h
    by_contra hc
    rw [(dbLookup_none_iff kv.db.entries key).mpr hc] at h
    simp at h
  · intro h
    cases hl : dbLookup kv.db.entries key
    · exact absurd ((dbLookup_none_iff kv.db.entries key).mp hl) (by simpa using h)
    · simp [hl]

theorem nextFilter_eq (key x : Bytes) :
    (keepKey key x && ! keyLt x key) = (keyLt key x && ! isReservedlKey x) := by
  unfold keepKey
  by_cases hx : x = key
  · subst hx
    simp [keyLt_irrefl]
  · by_cases hr : isReservedlKey x = true
    · simp [hr]
    · rcases keyLt_total x key with h | h | h
      · simp [h, hx, hr, keyLt_asymm x key h]
      · exact absurd h hx
      · simp [h, hx, hr, keyLt_asymm key x h]

theorem prevFilter_eq (key x : Bytes) :
    (keepKey key x && keyLt x key) = (keyLt x key && ! isReservedlKey x) := by
  unfold keepKey
  cases h : keyLt x key
  · simp
  · have hne : x ≠ key := keyLt_ne x key h
    by_cases hr : isReservedlKey x = true <;> simp [hne, hr]

/-- C7: for a key equal to one of the two reserved sentinel keys, `Put`,
`Get` and `Delete` on the data-facing store API fail with the reserved-key
error and leave the store state, including the count, unchanged. -/
theorem claim_C7_reserved_key_ops_fail (kv : KVStore) (key value : Bytes)
    (h : isReservedlKey key = true) :
    kv.Put key value = (kv, some "Not allow put reserved key")
  ∧ kv.Get key = Except.error "Not allow get reserved key"
  ∧ kv.Delete key = (kv, some "Not allow delete reserved key")
  ∧ (kv.Put key value).1.Count = kv.Count
  ∧ (kv.Delete key).1.Count = kv.Count := by
  unfold KVStore.Put KVStore.Get KVStore.Delete
  simp [h]

/-- Witness for C7 at the concrete reserved key `__key_for_count__` on the
empty store. -/
theorem claim_C7_witness :
    isReservedlKey keyForCount = true
  ∧ (KVStore.empty.Put keyForCount [1] = (KVStore.empty, some "Not allow put reserved key")
      ∧ KVStore.empty.Get keyForCount = Except.error "Not allow get reserved key"
      ∧ KVStore.empty.Delete keyForCount = (KVStore.empty, some "Not allow delete reserved key")
      ∧ (KVStore.empty.Put keyForCount [1]).1.Count = KVStore.empty.Count
      ∧ (KVStore.empty.Delete keyForCount).1.Count = KVStore.empty.Count) :=
  ⟨by decide, claim_C7_reserved_key_ops_fail KVStore.empty keyForCount [1] (by decide)⟩

/-- C10: for a non-positive `n`, `Next` and `Prev` return the empty
sequence (they are pure reads, so the store is untouched by construction). -/
theorem claim_C10_nonpositive_n (kv : KVStore) (key : Bytes) (n : Int) (h : n ≤ 0) :
    kv.Next key n = [] ∧ kv.Prev key n = [] := by
  unfold KVStore.Next KVStore.Prev
  rw [Int.toNat_of_nonpos h]
  constructor
  · exact collectKeys_zero _ _
  · exact collectKeys_zero _ _

/-- Witness for C10 at `n = -1` and `n = 0` on a store with two keys. -/
theorem claim_C10_witness :
    ((-1 : Int) ≤ 0
      ∧ (runOps [StoreOp.put [97] [], StoreOp.put [99] []]).Next [97] (-1) = []
      ∧ (runOps [StoreOp.put [97] [], StoreOp.put [99] []]).Prev [97] (-1) = [])
  ∧ ((0 : Int) ≤ 0
      ∧ (runOps [StoreOp.put [97] [], StoreOp.put [99] []]).Next [] 0 = []
      ∧ (runOps [StoreOp.put [97] [], StoreOp.put [99] []]).Prev [] 0 = []) :=
  ⟨⟨by decide, claim_C10_nonpositive_n _ [97] (-1) (by decide)⟩,
   ⟨by decide, claim_C10_nonpositive_n _ [] 0 (by decide)⟩⟩

/-- C9: `SetTTL` with a non-positive `createTime` or `ttl` fails with the
invalid-argument error and leaves the Expiration Index and the TTL record
store unchanged. -/
theorem claim_C9_setttl_invalid_arguments (c : TTLChecker) (key : Bytes)
    (createTime ttl : Int) (h : createTime ≤ 0 ∨ ttl ≤ 0) :
    c.SetTTL key createTime ttl = (c, some "createTime or ttl invalid") := by
  unfold TTLChecker.SetTTL
  rw [if_pos h]

/-- Witness for C9 at `createTime = 0` and at `ttl = -2` on a non-empty
checker state. -/
theorem claim_C9_witness :
    ((0 : Int) ≤ 0 ∨ (5 : Int) ≤ 0)
  ∧ (TTLChecker.empty.SetTTL [1] 5 3).1.SetTTL [2] 0 5 =
      ((TTLChecker.empty.SetTTL [1] 5 3).1, some "createTime or ttl invalid")
  ∧ (((7 : Int) ≤ 0 ∨ (-2 : Int) ≤ 0)
      ∧ TTLChecker.empty.SetTTL [2] 7 (-2) = (TTLChecker.empty, some "createTime or ttl invalid")) :=
  ⟨Or.inl (by decide),
   claim_C9_setttl_invalid_arguments (TTLChecker.empty.SetTTL [1] 5 3).1 [2] 0 5 (Or.inl (by decide)),
   ⟨Or.inr (by decide),
    claim_C9_setttl_invalid_arguments TTLChecker.empty [2] 7 (-2) (Or.inr (by decide))⟩⟩

/-- C6: when an active record for `key` already carries exactly the given
`(createTime, ttl)`, a repeated `SetTTL` with the same arguments succeeds
and leaves the whole checker state (Expiration Index, stored record, and
hence `GetKeyCount`) unchanged. -/
theorem claim_C6_setttl_idempotent (c : TTLChecker) (key : Bytes) (createTime ttl : Int)
    (hct : 0 < createTime) (httl : 0 < ttl) (info : TTLInfo)
    (hget : c.GetInfo key = Except.ok info)
    (hc : info.CreateTime = createTime) (ht : info.TTL = ttl) :
    c.SetTTL key createTime ttl = (c, none)
  ∧ (c.SetTTL key createTime ttl).1.GetKeyCount = c.GetKeyCount
  ∧ (c.SetTTL key createTime ttl).1.GetInfo key = c.GetInfo key := by
  have hmain : c.SetTTL key createTime ttl = (c, none) := by
    unfold TTLChecker.SetTTL
    rw [if_neg (by omega), hget]
    simp [hc, ht]
  exact ⟨hmain, by rw [hmain], by rw [hmain]⟩

/-- Witness for C6: a record set once via `SetTTL` and then set again with
identical arguments. -/
theorem claim_C6_witness :
    (0 : Int) < 5 ∧ (0 : Int) < 3
  ∧ (TTLChecker.empty.SetTTL [1] 5 3).1.GetInfo [1] = Except.ok ⟨[1], 5, 3, 8⟩
  ∧ ((TTLChecker.empty.SetTTL [1] 5 3).1.SetTTL [1] 5 3 = ((TTLChecker.empty.SetTTL [1] 5 3).1, none)
      ∧ ((TTLChecker.empty.SetTTL [1] 5 3).1.SetTTL [1] 5 3).1.GetKeyCount =
          (TTLChecker.empty.SetTTL [1] 5 3).1.GetKeyCount
      ∧ ((TTLChecker.empty.SetTTL [1] 5 3).1.SetTTL [1] 5 3).1.GetInfo [1] =
          (TTLChecker.empty.SetTTL [1] 5 3).1.GetInfo [1]) :=
  ⟨by decide, by decide, by rfl,
   claim_C6_setttl_idempotent (TTLChecker.empty.SetTTL [1] 5 3).1 [1] 5 3 (by decide) (by decide)
     ⟨[1], 5, 3, 8⟩ (by rfl) rfl rfl⟩

/-- The cursor-semantics scenario store: keys `"1"` .. `"6"` (bytes 49-54)
plus both reserved keys (`__key_for_count__` written by the puts,
`__key_for_sequence__` written by a sequence generation). -/
def kv6scenario : KVStore :=
  runOps [StoreOp.put [49] [49], StoreOp.put [50] [50], StoreOp.put [51] [51],
    StoreOp.put [52] [52], StoreOp.put [53] [53], StoreOp.put [54] [54], StoreOp.nextSeq]

/-- C4: `Next(key, n)` returns up to `n` keys strictly greater than the
cursor in ascending lexicographic order, excluding the reserved keys and the
cursor itself; a nil/empty cursor starts from the smallest key (the first
`n` non-reserved keys); and on the scenario store holding `"1"`..`"6"` plus
both reserved keys, `Next("", 100)` returns exactly the six data keys in
order. -/
theorem claim_C4_next_cursor (kv : KVStore) (key : Bytes) (n : Int) (hs : DBSorted kv.db) :
    (∀ x ∈ kv.Next key n, isReservedlKey x = false ∧ x ≠ key ∧ (key ≠ [] → keyLt key x = true))
  ∧ List.Pairwise (fun a b => keyLt a b = true) (kv.Next key n)
  ∧ (key = [] → kv.Next key n = (kv.db.keys.filter (keepKey key)).take n.toNat)
  ∧ (key ≠ [] → kv.Next key n =
      (kv.db.keys.filter (fun x => keyLt key x && ! isReservedlKey x)).take n.toNat)
  ∧ kv6scenario.Next [] 100 = [[49], [50], [51], [52], [53], [54]] := by
  have hp := keys_pairwise kv.db hs
  have hceq : key = [] → kv.Next key n = (kv.db.keys.filter (keepKey key)).take n.toNat := by
    intro hk
    unfold KVStore.Next
    rw [if_pos hk, collectKeys_eq_filter_take]
  have hdeq : key ≠ [] → kv.Next key n =
      (kv.db.keys.filter (fun x => keyLt key x && ! isReservedlKey x)).take n.toNat := by
    intro hk
    unfold KVStore.Next
    rw [if_neg hk, collectKeys_eq_filter_take, sorted_dropWhile_eq_filter key kv.db.keys hp,
      List.filter_filter]
    congr 1
    exact List.filter_congr (fun x _ => nextFilter_eq key x)
  refine ⟨?_, ?_, hceq, hdeq, by decide⟩
  · intro x hx
    by_cases hk : key = []
    · subst hk
      rw [hceq rfl] at hx
      have hx2 := List.mem_filter.mp (List.mem_of_mem_take hx)
      have hkeep := hx2.2
      unfold keepKey at hkeep
      simp only [Bool.not_eq_true', Bool.or_eq_false_iff, decide_eq_false_iff_not] at hkeep
      exact ⟨hkeep.2, hkeep.1, fun h => absurd rfl h⟩
    · rw [hdeq hk] at hx
      have hx2 := List.mem_filter.mp (List.mem_of_mem_take hx)
      have hkeep := hx2.2
      simp only [Bool.and_eq_true, Bool.not_eq_true'] at hkeep
      exact ⟨hkeep.2, fun he => absurd (he ▸ hkeep.1) (by simp [keyLt_irrefl]),
        fun _ => hkeep.1⟩
  · by_cases hk : key = []
    · rw [hceq hk]
      exact hp.sublist ((List.take_sublist _ _).trans (List.filter_sublist _))
    · rw [hdeq hk]
      exact hp.sublist ((List.take_sublist _ _).trans (List.filter_sublist _))

/-- Witness for C4 on the scenario store with cursor `"3"` and `n = 2`. -/
theorem claim_C4_witness :
    DBSorted kv6scenario.db
  ∧ ((∀ x ∈ kv6scenario.Next [51] 2,
        isReservedlKey x = false ∧ x ≠ [51] ∧ ([51] ≠ ([] : Bytes) → keyLt [51] x = true))
    ∧ List.Pairwise (fun a b => keyLt a b = true) (kv6scenario.Next [51] 2)
    ∧ ([51] = ([] : Bytes) →
        kv6scenario.Next [51] 2 = (kv6scenario.db.keys.filter (keepKey [51])).take (2 : Int).toNat)
    ∧ ([51] ≠ ([] : Bytes) → kv6scenario.Next [51] 2 =
        (kv6scenario.db.keys.filter (fun x => keyLt [51] x && ! isReservedlKey x)).take (2 : Int).toNat)
    ∧ kv6scenario.Next [] 100 = [[49], [50], [51], [52], [53], [54]]) :=
  ⟨by decide, claim_C4_next_cursor kv6scenario [51] 2 (by decide)⟩

/-- A store holding keys `"a"` (97) and `"c"` (99): the seek-based `Prev`
overshoots on the absent cursor `"b"` (98). -/
def prevCexStore : KVStore := runOps [StoreOp.put [97] [], StoreOp.put [99] []]

/-- C1 counterexample: on a store containing `"a"` and `"c"`, `Prev("b", 10)`
returns `["c", "a"]`, whose first element `"c"` is not strictly less than the
cursor `"b"` — the claim that every returned key is strictly less than the
cursor is false. -/
theorem claim_C1_counterexample :
    ¬ (∀ x ∈ prevCexStore.Prev [98] 10, keyLt x [98] = true) := by decide

theorem prev_eq_of_dropWhile_cons (kv : KVStore) (key : Bytes) (n : Int)
    (hk : key ≠ []) (h : Bytes) (t : List Bytes)
    (hdw : kv.db.keys.dropWhile (fun x => keyLt x key) = h :: t) :
    kv.Prev key n =
      (List.filter (keepKey key)
        (h :: (kv.db.keys.takeWhile (fun y => keyLt y key)).reverse)).take n.toNat := by
  unfold KVStore.Prev
  rw [if_neg hk, hdw, collectKeys_eq_filter_take]

theorem prev_eq_of_dropWhile_nil (kv : KVStore) (key : Bytes) (n : Int)
    (hk : key ≠ [])
    (hdw : kv.db.keys.dropWhile (fun x => keyLt x key) = []) :
    kv.Prev key n = [] := by
  unfold KVStore.Prev
  rw [if_neg hk, hdw]
  rfl

/-- C1 amended: `Prev(key, n)` returns up to `n` keys in strictly descending
lexicographic order, excluding reserved keys and the cursor itself; all
returned keys except possibly the first are strictly less than the cursor;
when a non-empty cursor is present in the store every returned key is
strictly less than it, and a nil/empty cursor yields the up-to-`n` largest
non-reserved keys in descending order.  (When the cursor is absent, the seek
lands on the smallest stored key greater than the cursor, which may be
returned first — the part of the original claim the counterexample
refutes.) -/
theorem claim_C1_prev_amended (kv : KVStore) (key : Bytes) (n : Int) (hs : DBSorted kv.db) :
    (∀ x ∈ kv.Prev key n, isReservedlKey x = false ∧ x ≠ key)
  ∧ List.Pairwise (fun a b => keyLt b a = true) (kv.Prev key n)
  ∧ (key = [] → kv.Prev key n = ((kv.db.keys.filter (keepKey key)).reverse).take n.toNat)
  ∧ (key ≠ [] → kv.Has key = true → kv.Prev key n =
      ((kv.db.keys.filter (fun x => keyLt x key && ! isReservedlKey x)).reverse).take n.toNat)
  ∧ (key ≠ [] → ∀ x ∈ (kv.Prev key n).tail, keyLt x key = true) := by
  have hp := keys_pairwise kv.db hs
  by_cases hk : key = []
  · subst hk
    have hceq : kv.Prev [] n = (kv.db.keys.reverse.filter (keepKey [])).take n.toNat := by
      unfold KVStore.Prev
      rw [if_pos rfl, collectKeys_eq_filter_take]
    refine ⟨?_, ?_, ?_, ?_, ?_⟩
    · intro x hx
      rw [hceq] at hx
      have hx2 := List.mem_filter.mp (List.mem_of_mem_take hx)
      have hkeep := hx2.2
      unfold keepKey at hkeep
      simp only [Bool.not_eq_true', Bool.or_eq_false_iff, decide_eq_false_iff_not] at hkeep
      exact ⟨hkeep.2, hkeep.1⟩
    · rw [hceq]
      refine List.Pairwise.sublist ((List.take_sublist _ _).trans (List.filter_sublist _)) ?_
      exact List.pairwise_reverse.mpr hp
    · intro _
      rw [hceq, List.filter_reverse]
    · intro hne
      exact absurd rfl hne
    · intro hne
      exact absurd rfl hne
  · rcases hdw : kv.db.keys.dropWhile (fun x => keyLt x key) with _ | ⟨h, t⟩
    · have hPrev := prev_eq_of_dropWhile_nil kv key n hk hdw
      refine ⟨?_, ?_, ?_, ?_, ?_⟩
      · intro x hx
        rw [hPrev] at hx
        exact absurd hx (List.not_mem_nil x)
      · rw [hPrev]
        exact List.Pairwise.nil
      · intro he
        exact absurd he hk
      · intro _ hhas
        have hmem := (Has_iff_mem_keys kv key).mp hhas
        rw [sorted_dropWhile_of_mem key kv.db.keys hp hmem] at hdw
        cases hdw
      · intro _ x hx
        rw [hPrev] at hx
        exact absurd hx (List.not_mem_nil x)
    · have hPrev := prev_eq_of_dropWhile_cons kv key n hk h t hdw
      have hL : ∀ x ∈ (kv.db.keys.takeWhile (fun y => keyLt y key)).reverse,
          keyLt x key = true := by
        intro x hx
        have hx2 : x ∈ kv.db.keys.takeWhile (fun y => keyLt y key) := List.mem_reverse.mp hx
        have hx3 := List.mem_takeWhile_imp hx2
        simpa using hx3
      have hhmem : h ∈ List.filter (fun x => ! keyLt x key) kv.db.keys := by
        rw [← sorted_dropWhile_eq_filter key kv.db.keys hp, hdw]
        exact List.mem_cons_self h t
      have hh : keyLt h key = false := by
        have := (List.mem_filter.mp hhmem).2
        simpa using this
      have hseq : List.Pairwise (fun a b => keyLt b a = true)
          (h :: (kv.db.keys.takeWhile (fun y => keyLt y key)).reverse) := by
        refine List.pairwise_cons.mpr ⟨?_, ?_⟩
        · intro x hx
          have hxk := hL x hx
          by_cases hhk : h = key
          · rw [← hhk] at hxk
            exact hxk
          · exact keyLt_trans x key h hxk (keyLt_of_not_lt_of_ne h key hh hhk)
        · refine List.pairwise_reverse.mpr ?_
          exact hp.sublist (List.takeWhile_sublist _)
      refine ⟨?_, ?_, ?_, ?_, ?_⟩
      · intro x hx
        rw [hPrev] at hx
        have hx2 := List.mem_filter.mp (List.mem_of_mem_take hx)
        have hkeep := hx2.2
        unfold keepKey at hkeep
        simp only [Bool.not_eq_true', Bool.or_eq_false_iff, decide_eq_false_iff_not] at hkeep
        exact ⟨hkeep.2, hkeep.1⟩
      · rw [hPrev]
        exact hseq.sublist ((List.take_sublist _ _).trans (List.filter_sublist _))
      · intro he
        exact absurd he hk
      · intro _ hhas
        have hmem := (Has_iff_mem_keys kv key).mp hhas
        have hdw2 := hdw
        rw [sorted_dropWhile_of_mem key kv.db.keys hp hmem] at hdw2
        injection hdw2 with h1 h2
        rw [hPrev, ← h1]
        have hkk : keepKey key key = false := by simp [keepKey]
        rw [List.filter_cons, hkk]
        simp only [Bool.false_eq_true, if_false]
        rw [sorted_takeWhile_eq_filter key kv.db.keys hp, List.filter_reverse, List.filter_filter]
        congr 2
        exact List.filter_congr (fun x _ => prevFilter_eq key x)
      · intro _ x hx
        rw [hPrev] at hx
        cases hkeep : keepKey key h
        · rw [List.filter_cons, hkeep] at hx
          simp only [Bool.false_eq_true, if_false] at hx
          have hx2 : x ∈ List.filter (keepKey key)
              (kv.db.keys.takeWhile (fun y => keyLt y key)).reverse :=
            List.mem_of_mem_take (List.mem_of_mem_tail hx)
          exact hL x (List.mem_filter.mp hx2).1
        · rw [List.filter_cons, hkeep] at hx
          simp only [if_true] at hx
          rcases hn : n.toNat with _ | m
          · rw [hn] at hx
            simp at hx
          · rw [hn, List.take_succ_cons] at hx
            have hx2 := List.mem_of_mem_take (hx : x ∈ _)
            exact hL x (List.mem_filter.mp hx2).1

/-- Witness for the amended C1 on the counterexample store with the absent
cursor `"b"` and `n = 10`. -/
theorem claim_C1_witness :
    DBSorted prevCexStore.db
  ∧ ((∀ x ∈ prevCexStore.Prev [98] 10, isReservedlKey x = false ∧ x ≠ [98])
    ∧ List.Pairwise (fun a b => keyLt b a = true) (prevCexStore.Prev [98] 10)
    ∧ ([98] = ([] : Bytes) → prevCexStore.Prev [98] 10 =
        ((prevCexStore.db.keys.filter (keepKey [98])).reverse).take (10 : Int).toNat)
    ∧ ([98] ≠ ([] : Bytes) → prevCexStore.Has [98] = true → prevCexStore.Prev [98] 10 =
        ((prevCexStore.db.keys.filter (fun x => keyLt x [98] && ! isReservedlKey x)).reverse).take
          (10 : Int).toNat)
    ∧ ([98] ≠ ([] : Bytes) → ∀ x ∈ (prevCexStore.Prev [98] 10).tail, keyLt x [98] = true)) :=
  ⟨by decide, claim_C1_prev_amended prevCexStore [98] 10 (by decide)⟩

theorem dbLookup_mem : ∀ (es : List (Bytes × Bytes)) (k v : Bytes),
    dbLookup es k = some v → (k, v) ∈ es
  | [], k, v, h => by simp [dbLookup] at h
  | (k0, v0) :: rest, k, v, h => by
    simp only [dbLookup] at h
    split at h
    · rename_i he
      subst he
      injection h with h
      subst h
      exact List.mem_cons_self _ _
    · exact List.mem_cons_of_mem _ (dbLookup_mem rest k v h)

theorem not_reserved_ne_count (key : Bytes) (h : isReservedlKey key = false) :
    key ≠ keyForCount := by
  intro he
  subst he
  simp [isReservedlKey, reservedlKeys] at h

/-- A successful `KVStore.Put` leaves the written value readable under the
written key (the accompanying count-cell write targets a different key). -/
theorem KVStore_Put_get_self (kv : KVStore) (key value : Bytes)
    (h : (kv.Put key value).2 = none) :
    (kv.Put key value).1.db.get key = some value ∧ isReservedlKey key = false := by
  unfold KVStore.Put at h ⊢
  by_cases hr : isReservedlKey key = true
  · rw [if_pos hr] at h
    cases h
  · have hr2 : isReservedlKey key = false := by
      cases hx : isReservedlKey key
      · rfl
      · exact absurd hx hr
    rw [if_neg hr]
    by_cases hh : kv.Has key = true
    · rw [if_pos hh]
      exact ⟨dbLookup_insert_self kv.db.entries key value, hr2⟩
    · rw [if_neg hh]
      refine ⟨?_, hr2⟩
      show dbLookup (dbInsert (dbInsert kv.db.entries key value) keyForCount _) key = some value
      rw [dbLookup_insert_ne _ _ _ _ (not_reserved_ne_count key hr2)]
      exact dbLookup_insert_self kv.db.entries key value

/-- Well-formedness of one persisted TTL record: if its value bytes decode,
the decoded record names the key it is stored under and satisfies the
`expiredTime = createTime + ttl` (int64) invariant. -/
def recordOK (p : Bytes × Bytes) : Bool :=
  match decodeInfo p.2 with
  | none => true
  | some i => decide (i.Key = p.1) && decide (i.ExpiredTime = addInt64 i.CreateTime i.TTL)

/-- Well-formedness of a checker's record store: every persisted record is
well formed.  This holds for every state reachable through the public API,
since `SetTTL` always stores the record under its own key. -/
def WFRecords (c : TTLChecker) : Bool := c.db.db.entries.all recordOK

theorem GetInfo_ok_wf (c : TTLChecker) (key : Bytes) (info : TTLInfo)
    (hwf : WFRecords c = true) (h : c.GetInfo key = Except.ok info) :
    info.Key = key ∧ info.ExpiredTime = addInt64 info.CreateTime info.TTL := by
  unfold TTLChecker.GetInfo at h
  rcases hg : c.db.Get key with e | v
  · rw [hg] at h
    cases h
  · simp only [hg] at h
    rcases hd : decodeInfo v with _ | i
    · simp only [hd] at h
      cases h
    · simp only [hd] at h
      injection h with h
      subst h
      unfold KVStore.Get at hg
      by_cases hr : isReservedlKey key = true
      · rw [if_pos hr] at hg
        cases hg
      · rw [if_neg hr] at hg
        rcases hget2 : c.db.db.get key with _ | v2
        · simp only [hget2] at hg
          cases hg
        · simp only [hget2] at hg
          injection hg with hg
          subst hg
          have hmem := dbLookup_mem _ _ _ hget2
          have hall := List.all_eq_true.mp hwf _ hmem
          unfold recordOK at hall
          simp only [hd] at hall
          simp only [Bool.and_eq_true, decide_eq_true_eq] at hall
          exact hall

theorem addIndex_GetInfo (c1 : TTLChecker) (info : TTLInfo)
    (h : (c1.addIndex info true).2 = none) :
    (c1.addIndex info true).1.GetInfo info.Key = Except.ok info := by
  unfold TTLChecker.addIndex at h ⊢
  rw [if_pos rfl] at h ⊢
  have hput := KVStore_Put_get_self c1.db info.Key (encodeInfo info) h
  unfold TTLChecker.GetInfo KVStore.Get
  rw [if_neg (by simp [hput.2])]
  simp only [hput.1, decodeInfo_encodeInfo]

/-- C5: immediately after a successful `SetTTL(key, createTime, ttl)` on a
well-formed state, `GetInfo(key)` succeeds with a record whose `Key`,
`CreateTime` and `TTL` equal the arguments and whose `ExpiredTime` equals
`createTime + ttl` (the record round-trips exactly through serialization to
the TTL record store).  The range bound keeps the int64 sum un-wrapped. -/
theorem claim_C5_setttl_getinfo_roundtrip (c : TTLChecker) (key : Bytes)
    (createTime ttl : Int) (hwf : WFRecords c = true)
    (hsucc : (c.SetTTL key createTime ttl).2 = none)
    (hrange : createTime + ttl < 2 ^ 63) :
    (c.SetTTL key createTime ttl).1.GetInfo key =
      Except.ok ⟨key, createTime, ttl, createTime + ttl⟩ := by
  by_cases hv : createTime ≤ 0 ∨ ttl ≤ 0
  · exfalso
    unfold TTLChecker.SetTTL at hsucc
    rw [if_pos hv] at hsucc
    cases hsucc
  · have hpos : 0 < createTime ∧ 0 < ttl := by
      push_neg at hv
      omega
    have hadd : addInt64 createTime ttl = createTime + ttl :=
      addInt64_eq createTime ttl (by omega) hrange
    unfold TTLChecker.SetTTL at hsucc ⊢
    rw [if_neg hv] at hsucc ⊢
    rcases hget : c.GetInfo key with e | info
    · simp only [hget, hadd] at hsucc ⊢
      exact addIndex_GetInfo c ⟨key, createTime, ttl, createTime + ttl⟩ hsucc
    · simp only [hget, hadd] at hsucc ⊢
      by_cases hmatch : info.CreateTime = createTime ∧ info.TTL = ttl
      · rw [if_pos hmatch] at hsucc ⊢
        have hw := GetInfo_ok_wf c key info hwf hget
        have : info = ⟨key, createTime, ttl, createTime + ttl⟩ := by
          rcases info with ⟨ik, ic, it, ie⟩
          simp only at hw hmatch
          simp only [TTLInfo.mk.injEq]
          rw [hmatch.1, hmatch.2] at hw ⊢
          refine ⟨hw.1, rfl, rfl, ?_⟩
          rw [hw.2, hadd]
        rw [hget, this]
      · rw [if_neg hmatch] at hsucc ⊢
        exact addIndex_GetInfo (c.deleteIndex info).1 ⟨key, createTime, ttl, createTime + ttl⟩
          hsucc

/-- Witness for C5: a fresh checker, `SetTTL([1], 5, 3)`, read back. -/
theorem claim_C5_witness :
    WFRecords TTLChecker.empty = true
  ∧ (TTLChecker.empty.SetTTL [1] 5 3).2 = none
  ∧ (5 : Int) + 3 < 2 ^ 63
  ∧ (TTLChecker.empty.SetTTL [1] 5 3).1.GetInfo [1] = Except.ok ⟨[1], 5, 3, 5 + 3⟩ :=
  ⟨by decide, by decide, by decide,
   claim_C5_setttl_getinfo_roundtrip TTLChecker.empty [1] 5 3 (by decide) (by decide) (by decide)⟩

theorem KVStore_Put_err_none (kv : KVStore) (key value : Bytes)
    (h : isReservedlKey key = false) : (kv.Put key value).2 = none := by
  unfold KVStore.Put
  rw [if_neg (by simp [h])]
  by_cases hh : kv.Has key = true
  · rw [if_pos hh]
  · rw [if_neg hh]

/-- A failed `SetTTL` on a non-reserved key can only be an argument
validation failure, which happens before any mutation. -/
theorem SetTTL_fail_state_unchanged (c : TTLChecker) (key : Bytes) (createTime ttl : Int)
    (hr : isReservedlKey key = false)
    (hfail : (c.SetTTL key createTime ttl).2.isSome = true) :
    (c.SetTTL key createTime ttl).1 = c := by
  unfold TTLChecker.SetTTL at hfail ⊢
  by_cases hv : createTime ≤ 0 ∨ ttl ≤ 0
  · rw [if_pos hv]
  · rw [if_neg hv] at hfail ⊢
    exfalso
    rcases hget : c.GetInfo key with e | info
    · simp only [hget, TTLChecker.addIndex, if_pos rfl] at hfail
      rw [KVStore_Put_err_none c.db key _ hr] at hfail
      simp at hfail
    · simp only [hget] at hfail
      by_cases hmatch : info.CreateTime = createTime ∧ info.TTL = ttl
      · rw [if_pos hmatch] at hfail
        simp at hfail
      · rw [if_neg hmatch] at hfail
        simp only [TTLChecker.addIndex, if_pos rfl] at hfail
        rw [KVStore_Put_err_none _ key _ hr] at hfail
        simp at hfail

/-- A cache state holding key `"k"` (107) with value 118 and an active TTL
record `(createTime 10, ttl 5)`. -/
def c8state : TTLCache := (TTLCache.empty.Put [107] [118] 5 10).1

/-- C8 counterexample: on a cache whose key already has an active TTL
record, a later `Put` of the same key with an invalid ttl succeeds in the
value store and fails in `SetTTL` — yet a TTL record for the key still
exists (`GetInfo` succeeds with the old record), refuting the claim's "no
TTL record exists for key". -/
theorem claim_C8_counterexample :
    (c8state.dataStore.Put [107] [119]).2 = none
  ∧ (c8state.ttlChecker.SetTTL [107] 11 0).2.isSome = true
  ∧ (c8state.Put [107] [119] 0 11).2.isSome = true
  ∧ (c8state.Put [107] [119] 0 11).1.Get [107] = Except.ok [119]
  ∧ (c8state.Put [107] [119] 0 11).1.ttlChecker.GetInfo [107] =
      Except.ok ⟨[107], 10, 5, 15⟩ :=
  ⟨by decide, by decide, by decide, by rfl, by rfl⟩

/-- C8 amended: `Put` writes the value before calling `SetTTL` and does not
roll it back on TTL failure: when the value-store write succeeds and
`SetTTL` fails, `Put` returns the error, `Get(key)` returns the new value,
and the TTL subsystem is left exactly as it was before the call (in
particular, a key that had no TTL record still has none). -/
theorem claim_C8_put_partial_failure (c : TTLCache) (key value : Bytes) (ttl now : Int)
    (hval : (c.dataStore.Put key value).2 = none)
    (hfail : (c.ttlChecker.SetTTL key now ttl).2.isSome = true) :
    (c.Put key value ttl now).2.isSome = true
  ∧ (c.Put key value ttl now).1.ttlChecker = c.ttlChecker
  ∧ (c.Put key value ttl now).1.Get key = Except.ok value := by
  have hput := KVStore_Put_get_self c.dataStore key value hval
  have hunch := SetTTL_fail_state_unchanged c.ttlChecker key now ttl hput.2 hfail
  unfold TTLCache.Put
  simp only [hval]
  refine ⟨hfail, hunch, ?_⟩
  unfold TTLCache.Get
  simp only
  unfold KVStore.Get
  rw [if_neg (by simp [hput.2])]
  rw [hput.1]

/-- Witness for the amended C8 on the concrete two-`Put` scenario. -/
theorem claim_C8_witness :
    (c8state.dataStore.Put [107] [119]).2 = none
  ∧ (c8state.ttlChecker.SetTTL [107] 11 0).2.isSome = true
  ∧ ((c8state.Put [107] [119] 0 11).2.isSome = true
      ∧ (c8state.Put [107] [119] 0 11).1.ttlChecker = c8state.ttlChecker
      ∧ (c8state.Put [107] [119] 0 11).1.Get [107] = Except.ok [119]) :=
  ⟨by decide, by decide,
   claim_C8_put_partial_failure c8state [107] [119] 0 11 (by decide) (by decide)⟩

theorem skDelete_cons_self (info : TTLInfo) (rest : List TTLInfo) :
    skDelete (info :: rest) info = rest := by
  simp [skDelete, TTLInfo.Less_irrefl]

theorem KVStore_Delete_sorted (kv : KVStore) (key : Bytes) (hs : DBSorted kv.db) :
    DBSorted (kv.Delete key).1.db := by
  unfold KVStore.Delete
  by_cases hr : isReservedlKey key = true
  · rw [if_pos hr]
    exact hs
  · rw [if_neg hr]
    by_cases hh : kv.Has key = true
    · rw [if_pos hh]
      exact dbInsert_sorted _ _ _ (dbRemove_sorted _ _ hs)
    · rw [if_neg hh]
      exact hs

theorem KVStore_Delete_get_none (kv : KVStore) (key : Bytes) (hs : DBSorted kv.db)
    (hr : isReservedlKey key = false) : (kv.Delete key).1.db.get key = none := by
  unfold KVStore.Delete
  rw [if_neg (by simp [hr])]
  by_cases hh : kv.Has key = true
  · rw [if_pos hh]
    show dbLookup (dbInsert (dbRemove kv.db.entries key) keyForCount _) key = none
    rw [dbLookup_insert_ne _ _ _ _ (not_reserved_ne_count key hr)]
    exact dbLookup_remove_self kv.db.entries key hs
  · rw [if_neg hh]
    unfold KVStore.Has DB.has at hh
    cases hg : kv.db.get key
    · rfl
    · rw [hg] at hh
      simp at hh

theorem KVStore_Delete_get_ne (kv : KVStore) (key k : Bytes)
    (hne : k ≠ key) (hnec : k ≠ keyForCount) :
    (kv.Delete key).1.db.get k = kv.db.get k := by
  unfold KVStore.Delete
  by_cases hr : isReservedlKey key = true
  · rw [if_pos hr]
  · rw [if_neg hr]
    by_cases hh : kv.Has key = true
    · rw [if_pos hh]
      show dbLookup (dbInsert (dbRemove kv.db.entries key) keyForCount _) k = _
      rw [dbLookup_insert_ne _ _ _ _ hnec]
      exact dbLookup_remove_ne _ _ _ hne
    · rw [if_neg hh]

theorem TTLInfo_Less_le (a b : TTLInfo) (h : TTLInfo.Less a b = true) :
    a.ExpiredTime ≤ b.ExpiredTime := by
  unfold TTLInfo.Less at h
  by_cases h1 : a.ExpiredTime < b.ExpiredTime
  · omega
  · rw [if_neg h1] at h
    by_cases h2 : a.ExpiredTime = b.ExpiredTime ∧ bytesCompare a.Key b.Key = Ordering.lt
    · omega
    · rw [if_neg h2] at h
      cases h

/-- The sweep's continuation predicate: the record's expiry is strictly in
the past. -/
def expiredBefore (now : Int) (i : TTLInfo) : Bool := decide (i.ExpiredTime < now)

/-- On a front-to-back chain sorted by the index order, the sweep's
stop-at-first-unexpired rule visits exactly the expired records. -/
theorem ttl_takeWhile_eq_filter (now : Int) :
    ∀ l : List TTLInfo, List.Pairwise (fun a b => TTLInfo.Less a b = true) l →
    l.takeWhile (expiredBefore now) = l.filter (expiredBefore now)
  | [], _ => rfl
  | x :: rest, hs => by
    rcases List.pairwise_cons.mp hs with ⟨h0, hrest⟩
    cases hx : expiredBefore now x
    · simp only [List.takeWhile_cons, List.filter_cons, hx]
      simp only [Bool.false_eq_true, if_false]
      symm
      rw [List.filter_eq_nil_iff]
      intro y hy hy2
      have h1 := TTLInfo_Less_le x y (h0 y hy)
      unfold expiredBefore at hx hy2
      simp only [decide_eq_true_eq, decide_eq_false_iff_not] at hx hy2 ⊢
      omega
    · simp only [List.takeWhile_cons, List.filter_cons, hx]
      simp only [if_true]
      rw [ttl_takeWhile_eq_filter now rest hrest]

theorem mem_of_takeWhile (p : TTLInfo → Bool) (l : List TTLInfo) (x : TTLInfo)
    (h : x ∈ l.takeWhile p) : x ∈ l :=
  List.Sublist.subset (List.takeWhile_sublist p) h

theorem mem_of_dropWhile (p : TTLInfo → Bool) (l : List TTLInfo) (x : TTLInfo)
    (h : x ∈ l.dropWhile p) : x ∈ l :=
  List.Sublist.subset (List.dropWhile_sublist p) h

theorem checkExpiredLoop_spec (now : Int) :
    ∀ (iter : List TTLInfo) (c : TTLChecker),
    c.skList = iter →
    DBSorted c.db.db →
    (iter.map TTLInfo.Key).Nodup →
    (∀ i ∈ iter, isReservedlKey i.Key = false) →
    (checkExpiredLoop now iter c).1 =
      ((iter.takeWhile (expiredBefore now)).map
        (fun i => [SweepEvent.callback i, SweepEvent.removeIndex i])).flatten
  ∧ (checkExpiredLoop now iter c).2.skList = iter.dropWhile (expiredBefore now)
  ∧ DBSorted (checkExpiredLoop now iter c).2.db.db
  ∧ (∀ k, k ∉ (iter.takeWhile (expiredBefore now)).map TTLInfo.Key → k ≠ keyForCount →
      (checkExpiredLoop now iter c).2.db.db.get k = c.db.db.get k)
  ∧ (∀ i ∈ iter.takeWhile (expiredBefore now),
      (checkExpiredLoop now iter c).2.db.db.get i.Key = none)
  | [], c, hskl, hs, _, _ => by
    exact ⟨rfl, by simpa [checkExpiredLoop] using hskl, hs, fun k _ _ => rfl,
      fun i hi => absurd hi (List.not_mem_nil i)⟩
  | info :: rest, c, hskl, hs, hnd, hnr => by
    by_cases hexp : info.ExpiredTime ≥ now
    · have hp : expiredBefore now info = false := by
        unfold expiredBefore
        simp only [decide_eq_false_iff_not]
        omega
      have htw : (info :: rest).takeWhile (expiredBefore now) = [] := by
        rw [List.takeWhile_cons, hp]
        simp
      have hdw : (info :: rest).dropWhile (expiredBefore now) = info :: rest := by
        rw [List.dropWhile_cons, hp]
        simp
      have hloop : checkExpiredLoop now (info :: rest) c = ([], c) := by
        simp only [checkExpiredLoop]
        rw [if_pos hexp]
      rw [hloop, htw, hdw]
      exact ⟨rfl, hskl, hs, fun k _ _ => rfl, fun i hi => absurd hi (List.not_mem_nil i)⟩
    · have hp : expiredBefore now info = true := by
        unfold expiredBefore
        simp only [decide_eq_true_eq]
        omega
      have htw : (info :: rest).takeWhile (expiredBefore now) =
          info :: rest.takeWhile (expiredBefore now) := by
        rw [List.takeWhile_cons, hp]
        simp
      have hdw : (info :: rest).dropWhile (expiredBefore now) =
          rest.dropWhile (expiredBefore now) := by
        rw [List.dropWhile_cons, hp]
        simp
      have hloop : checkExpiredLoop now (info :: rest) c =
          (SweepEvent.callback info :: SweepEvent.removeIndex info ::
            (checkExpiredLoop now rest (c.deleteIndex info).1).1,
           (checkExpiredLoop now rest (c.deleteIndex info).1).2) := by
        simp only [checkExpiredLoop]
        rw [if_neg hexp]
      have hc1skl : (c.deleteIndex info).1.skList = rest := by
        unfold TTLChecker.deleteIndex
        rw [hskl]
        exact skDelete_cons_self info rest
      have hc1db : (c.deleteIndex info).1.db = (c.db.Delete info.Key).1 := rfl
      have hc1s : DBSorted (c.deleteIndex info).1.db.db := by
        rw [hc1db]
        exact KVStore_Delete_sorted c.db info.Key hs
      have hndr : (rest.map TTLInfo.Key).Nodup := (List.nodup_cons.mp hnd).2
      have hkey_notin : info.Key ∉ rest.map TTLInfo.Key := (List.nodup_cons.mp hnd).1
      have hnrr : ∀ i ∈ rest, isReservedlKey i.Key = false :=
        fun i hi => hnr i (List.mem_cons_of_mem _ hi)
      have hnri : isReservedlKey info.Key = false := hnr info (List.mem_cons_self _ _)
      have ih := checkExpiredLoop_spec now rest (c.deleteIndex info).1 hc1skl hc1s hndr hnrr
      rw [hloop, htw, hdw]
      refine ⟨?_, ih.2.1, ih.2.2.1, ?_, ?_⟩
      · show SweepEvent.callback info :: SweepEvent.removeIndex info ::
            (checkExpiredLoop now rest (c.deleteIndex info).1).1 = _
        rw [ih.1]
        simp
      · intro k hk hkc
        have hk1 : k ≠ info.Key := by
          intro he
          exact hk (he ▸ List.mem_map_of_mem TTLInfo.Key (List.mem_cons_self _ _))
        have hk2 : k ∉ (rest.takeWhile (expiredBefore now)).map TTLInfo.Key := by
          intro hmem
          rcases List.mem_map.mp hmem with ⟨j, hj, hj2⟩
          exact hk (hj2 ▸ List.mem_map_of_mem TTLInfo.Key (List.mem_cons_of_mem _ hj))
        show (checkExpiredLoop now rest (c.deleteIndex info).1).2.db.db.get k = _
        rw [ih.2.2.2.1 k hk2 hkc, hc1db]
        exact KVStore_Delete_get_ne c.db info.Key k hk1 hkc
      · intro i hi
        show (checkExpiredLoop now rest (c.deleteIndex info).1).2.db.db.get i.Key = none
        rcases List.mem_cons.mp hi with h | h
        · subst h
          have hnotin : i.Key ∉ (rest.takeWhile (expiredBefore now)).map TTLInfo.Key := by
            intro hmem
            rcases List.mem_map.mp hmem with ⟨j, hj, hj2⟩
            exact hkey_notin (hj2 ▸ List.mem_map_of_mem TTLInfo.Key
              (mem_of_takeWhile (expiredBefore now) rest j hj))
          rw [ih.2.2.2.1 i.Key hnotin (not_reserved_ne_count i.Key hnri), hc1db]
          exact KVStore_Delete_get_none c.db i.Key hs hnri
        · exact ih.2.2.2.2 i h

/-- C2: one sweep pass at time `now`, on a well-formed checker state (index
sorted by `(expiredTime, key)` with pairwise-distinct non-reserved keys),
evicts exactly the records with `expiredTime < now`, visiting them in
ascending `(expiredTime, key)` order, with the callback fired before the
index/store removal of each record (the event trace), removes each evicted
record from both the index and the TTL record store, and stops at the first
record with `expiredTime >= now` without touching any later record. -/
theorem claim_C2_sweep_pass (c : TTLChecker) (now : Int)
    (hs : DBSorted c.db.db)
    (hsk : List.Pairwise (fun a b => TTLInfo.Less a b = true) c.skList)
    (hnd : (c.skList.map TTLInfo.Key).Nodup)
    (hnr : ∀ i ∈ c.skList, isReservedlKey i.Key = false) :
    c.skList.takeWhile (expiredBefore now) = c.skList.filter (expiredBefore now)
  ∧ (c.checkExpired now).1 =
      ((c.skList.takeWhile (expiredBefore now)).map
        (fun i => [SweepEvent.callback i, SweepEvent.removeIndex i])).flatten
  ∧ (c.checkExpired now).2.skList = c.skList.dropWhile (expiredBefore now)
  ∧ List.Pairwise (fun a b => TTLInfo.Less a b = true)
      (c.skList.takeWhile (expiredBefore now))
  ∧ (∀ i ∈ c.skList.takeWhile (expiredBefore now),
      (c.checkExpired now).2.db.Has i.Key = false)
  ∧ (∀ i ∈ c.skList.dropWhile (expiredBefore now),
      (c.checkExpired now).2.db.db.get i.Key = c.db.db.get i.Key) := by
  have h := checkExpiredLoop_spec now c.skList c rfl hs hnd hnr
  have hsplit : c.skList.takeWhile (expiredBefore now) ++
      c.skList.dropWhile (expiredBefore now) = c.skList :=
    List.takeWhile_append_dropWhile (expiredBefore now) c.skList
  unfold TTLChecker.checkExpired
  refine ⟨ttl_takeWhile_eq_filter now c.skList hsk, h.1, h.2.1,
    hsk.sublist (List.takeWhile_sublist _), ?_, ?_⟩
  · intro i hi
    unfold KVStore.Has DB.has
    rw [h.2.2.2.2 i hi]
    rfl
  · intro i hi
    have hmap : (c.skList.map TTLInfo.Key).Nodup := hnd
    rw [← hsplit, List.map_append] at hmap
    have hdisj := (List.nodup_append.mp hmap).2.2
    have hnri : isReservedlKey i.Key = false :=
      hnr i (mem_of_dropWhile (expiredBefore now) c.skList i hi)
    refine h.2.2.2.1 i.Key ?_ (not_reserved_ne_count i.Key hnri)
    intro hmem
    exact hdisj hmem (List.mem_map_of_mem TTLInfo.Key hi)

/-- A checker with two active records: `[1]` expiring at 8 and `[2]`
expiring at 15. -/
def sweepState : TTLChecker := ((TTLChecker.empty.SetTTL [1] 5 3).1.SetTTL [2] 5 10).1

/-- Witness for C2: sweeping `sweepState` at time 10 evicts exactly the
record expiring at 8 and keeps the record expiring at 15. -/
theorem claim_C2_witness :
    DBSorted sweepState.db.db
  ∧ List.Pairwise (fun a b => TTLInfo.Less a b = true) sweepState.skList
  ∧ (sweepState.skList.map TTLInfo.Key).Nodup
  ∧ (∀ i ∈ sweepState.skList, isReservedlKey i.Key = false)
  ∧ (sweepState.skList.takeWhile (expiredBefore 10) =
        sweepState.skList.filter (expiredBefore 10)
    ∧ (sweepState.checkExpired 10).1 =
        ((sweepState.skList.takeWhile (expiredBefore 10)).map
          (fun i => [SweepEvent.callback i, SweepEvent.removeIndex i])).flatten
    ∧ (sweepState.checkExpired 10).2.skList =
        sweepState.skList.dropWhile (expiredBefore 10)
    ∧ List.Pairwise (fun a b => TTLInfo.Less a b = true)
        (sweepState.skList.takeWhile (expiredBefore 10))
    ∧ (∀ i ∈ sweepState.skList.takeWhile (expiredBefore 10),
        (sweepState.checkExpired 10).2.db.Has i.Key = false)
    ∧ (∀ i ∈ sweepState.skList.dropWhile (expiredBefore 10),
        (sweepState.checkExpired 10).2.db.db.get i.Key = sweepState.db.db.get i.Key)) :=
  ⟨by decide, by decide, by decide, by decide,
   claim_C2_sweep_pass sweepState 10 (by decide) (by decide) (by decide) (by decide)⟩

/-- The count invariant of a store state: the entries are sorted and the
count cell holds exactly the decimal encoding of the number of non-reserved
keys present (reduced modulo `2 ^ 64`), or is absent while that number is
zero. -/
def CountInv (kv : KVStore) : Prop :=
  DBSorted kv.db ∧
  (kv.db.get keyForCount =
      some (formatUint ((nonReservedKeys kv).length % 2 ^ 64))
   ∨ (kv.db.get keyForCount = none ∧ (nonReservedKeys kv).length = 0))

theorem count_of_inv (kv : KVStore) (h : CountInv kv) :
    kv.count = (nonReservedKeys kv).length % 2 ^ 64 := by
  rcases h.2 with hc | hc
  · unfold KVStore.count KVStore.Has DB.has
    rw [hc]
    simp only [Option.isSome_some, not_true, if_false]
    rw [parseUint_formatUint _ (Nat.mod_lt _ (by norm_num))]
  · unfold KVStore.count KVStore.Has DB.has
    rw [hc.1, hc.2]
    simp

theorem has_false_get_none (kv : KVStore) (k : Bytes) (h : kv.Has k = false) :
    kv.db.get k = none := by
  unfold KVStore.Has DB.has at h
  cases hg : kv.db.get k
  · rfl
  · rw [hg] at h
    simp at h

/-- Writing a reserved key does not change the multiset of non-reserved
keys. -/
theorem nonReservedLen_put_reserved (db1 : DB) (r v : Bytes) (hs : DBSorted db1)
    (hr : isReservedlKey r = true) :
    (((db1.put r v).keys).filter (fun x => ! isReservedlKey x)).length =
      ((db1.keys).filter (fun x => ! isReservedlKey x)).length := by
  by_cases hl : (dbLookup db1.entries r).isSome
  · unfold DB.put DB.keys
    rw [keys_dbInsert_of_some db1.entries r v hs hl]
  · have hl2 : dbLookup db1.entries r = none := by
      cases hg : dbLookup db1.entries r
      · rfl
      · rw [hg] at hl
        simp at hl
    unfold DB.put DB.keys
    rw [filterLength_dbInsert_of_none _ db1.entries r v hl2]
    simp [hr]

theorem nonReservedLen_put_new (kv : KVStore) (k v : Bytes)
    (hr : isReservedlKey k = false) (hh : kv.Has k = false) :
    (((kv.db.put k v).keys).filter (fun x => ! isReservedlKey x)).length =
      ((kv.db.keys).filter (fun x => ! isReservedlKey x)).length + 1 := by
  have hl : dbLookup kv.db.entries k = none := has_false_get_none kv k hh
  unfold DB.put DB.keys
  rw [filterLength_dbInsert_of_none _ kv.db.entries k v hl]
  simp [hr]

theorem nonReservedLen_put_existing (kv : KVStore) (k v : Bytes) (hs : DBSorted kv.db)
    (hh : kv.Has k = true) :
    ((kv.db.put k v).keys).filter (fun x => ! isReservedlKey x) =
      (kv.db.keys).filter (fun x => ! isReservedlKey x) := by
  unfold KVStore.Has DB.has DB.get at hh
  unfold DB.put DB.keys
  rw [keys_dbInsert_of_some kv.db.entries k v hs hh]

theorem nonReservedLen_remove (kv : KVStore) (k : Bytes) (hs : DBSorted kv.db)
    (hr : isReservedlKey k = false) (hh : kv.Has k = true) :
    (((kv.db.delete k).keys).filter (fun x => ! isReservedlKey x)).length + 1 =
      ((kv.db.keys).filter (fun x => ! isReservedlKey x)).length := by
  unfold KVStore.Has DB.has DB.get at hh
  unfold DB.delete DB.keys
  have := filterLength_dbRemove_of_some (fun x => ! isReservedlKey x) kv.db.entries k hs hh
  simpa [hr] using this

theorem reserved_kfc : isReservedlKey keyForCount = true := by decide

theorem reserved_kseq : isReservedlKey keyForSequence = true := by decide

theorem kfc_ne_kseq : keyForCount ≠ keyForSequence := by decide

theorem mod_succ_eq (m : Nat) : (m % 2 ^ 64 + 1) % 2 ^ 64 = (m + 1) % 2 ^ 64 := by
  conv_rhs => rw [Nat.add_mod]
  norm_num

theorem mod_pred_eq (m : Nat) (hm : 1 ≤ m) :
    (m % 2 ^ 64 + (2 ^ 64 - 1)) % 2 ^ 64 = (m - 1) % 2 ^ 64 := by
  have h1 : (m + (2 ^ 64 - 1)) % 2 ^ 64 = (m % 2 ^ 64 + (2 ^ 64 - 1)) % 2 ^ 64 := by
    conv_lhs => rw [Nat.add_mod]
    rw [Nat.mod_eq_of_lt (a := 2 ^ 64 - 1) (by norm_num)]
  rw [← h1]
  have h2 : m + (2 ^ 64 - 1) = (m - 1) + 2 ^ 64 := by omega
  rw [h2, Nat.add_mod_right]

/-- The number of non-reserved keys in an engine state. -/
def nrLen (db : DB) : Nat := (db.keys.filter (fun x => ! isReservedlKey x)).length

theorem nrLen_eq (kv : KVStore) : (nonReservedKeys kv).length = nrLen kv.db := rfl

theorem nrLen_put_reserved (db : DB) (r v : Bytes) (hs : DBSorted db)
    (hr : isReservedlKey r = true) : nrLen (db.put r v) = nrLen db := by
  by_cases hl : (dbLookup db.entries r).isSome
  · unfold nrLen DB.put DB.keys
    rw [keys_dbInsert_of_some db.entries r v hs hl]
  · have hl2 : dbLookup db.entries r = none := by
      cases hg : dbLookup db.entries r
      · rfl
      · rw [hg] at hl
        simp at hl
    unfold nrLen DB.put DB.keys
    rw [filterLength_dbInsert_of_none _ db.entries r v hl2]
    simp [hr]

theorem nrLen_put_new (db : DB) (k v : Bytes) (hr : isReservedlKey k = false)
    (hl : dbLookup db.entries k = none) : nrLen (db.put k v) = nrLen db + 1 := by
  unfold nrLen DB.put DB.keys
  rw [filterLength_dbInsert_of_none _ db.entries k v hl]
  simp [hr]

theorem nrLen_put_existing (db : DB) (k v : Bytes) (hs : DBSorted db)
    (hl : (dbLookup db.entries k).isSome) : nrLen (db.put k v) = nrLen db := by
  unfold nrLen DB.put DB.keys
  rw [keys_dbInsert_of_some db.entries k v hs hl]

theorem nrLen_remove (db : DB) (k : Bytes) (hs : DBSorted db)
    (hr : isReservedlKey k = false) (hl : (dbLookup db.entries k).isSome) :
    nrLen (db.delete k) + 1 = nrLen db := by
  unfold nrLen DB.delete DB.keys
  have := filterLength_dbRemove_of_some (fun x => ! isReservedlKey x) db.entries k hs hl
  simpa [hr] using this

theorem CountInv_Put (kv : KVStore) (k v : Bytes) (h : CountInv kv) :
    CountInv (kv.Put k v).1 := by
  rcases h with ⟨hs, hc⟩
  unfold KVStore.Put
  by_cases hr : isReservedlKey k = true
  · rw [if_pos hr]
    exact ⟨hs, hc⟩
  · have hr2 : isReservedlKey k = false := by
      cases hx : isReservedlKey k
      · rfl
      · exact absurd hx hr
    rw [if_neg hr]
    by_cases hh : kv.Has k = true
    · rw [if_pos hh]
      have hsome : (dbLookup kv.db.entries k).isSome := hh
      refine ⟨dbInsert_sorted _ _ _ hs, ?_⟩
      have hkeys := nrLen_put_existing kv.db k v hs hsome
      show dbLookup (dbInsert kv.db.entries k v) keyForCount =
          some (formatUint (nrLen (kv.db.put k v) % 2 ^ 64))
        ∨ (dbLookup (dbInsert kv.db.entries k v) keyForCount = none
            ∧ nrLen (kv.db.put k v) = 0)
      rw [dbLookup_insert_ne _ _ _ _ (Ne.symm (not_reserved_ne_count k hr2)), hkeys]
      exact hc
    · rw [if_neg hh]
      have hcount := count_of_inv kv ⟨hs, hc⟩
      have hl : dbLookup kv.db.entries k = none :=
        has_false_get_none kv k (by
          cases hx : kv.Has k
          · rfl
          · exact absurd hx hh)
      refine ⟨dbInsert_sorted _ _ _ (dbInsert_sorted _ _ _ hs), ?_⟩
      left
      show dbLookup (dbInsert (dbInsert kv.db.entries k v) keyForCount
            (formatUint ((kv.count + 1) % 2 ^ 64))) keyForCount =
          some (formatUint (nrLen ((kv.db.put k v).put keyForCount
            (formatUint ((kv.count + 1) % 2 ^ 64))) % 2 ^ 64))
      rw [dbLookup_insert_self,
        nrLen_put_reserved (kv.db.put k v) keyForCount _ (dbInsert_sorted _ _ _ hs) reserved_kfc,
        nrLen_put_new kv.db k v hr2 hl, hcount, nrLen_eq, mod_succ_eq]

theorem CountInv_Delete (kv : KVStore) (k : Bytes) (h : CountInv kv) :
    CountInv (kv.Delete k).1 := by
  rcases h with ⟨hs, hc⟩
  unfold KVStore.Delete
  by_cases hr : isReservedlKey k = true
  · rw [if_pos hr]
    exact ⟨hs, hc⟩
  · have hr2 : isReservedlKey k = false := by
      cases hx : isReservedlKey k
      · rfl
      · exact absurd hx hr
    rw [if_neg hr]
    by_cases hh : kv.Has k = true
    · rw [if_pos hh]
      have hsome : (dbLookup kv.db.entries k).isSome := hh
      have hcount := count_of_inv kv ⟨hs, hc⟩
      have hdel := nrLen_remove kv.db k hs hr2 hsome
      have hdel2 : nrLen (kv.db.delete k) = nrLen kv.db - 1 := by omega
      have hmemk : k ∈ nonReservedKeys kv :=
        List.mem_filter.mpr ⟨(Has_iff_mem_keys kv k).mp hh, by simp [hr2]⟩
      have hpos : 1 ≤ nrLen kv.db := by
        rw [← nrLen_eq]
        exact List.length_pos_of_mem hmemk
      refine ⟨dbInsert_sorted _ _ _ (dbRemove_sorted _ _ hs), ?_⟩
      left
      show dbLookup (dbInsert (dbRemove kv.db.entries k) keyForCount
            (formatUint ((kv.count + (2 ^ 64 - 1)) % 2 ^ 64))) keyForCount =
          some (formatUint (nrLen ((kv.db.delete k).put keyForCount
            (formatUint ((kv.count + (2 ^ 64 - 1)) % 2 ^ 64))) % 2 ^ 64))
      rw [dbLookup_insert_self,
        nrLen_put_reserved (kv.db.delete k) keyForCount _ (dbRemove_sorted _ _ hs) reserved_kfc,
        hdel2, hcount, nrLen_eq, mod_pred_eq _ hpos]
    · rw [if_neg hh]
      exact ⟨hs, hc⟩

theorem CountInv_NextSequence (kv : KVStore) (h : CountInv kv) :
    CountInv kv.NextSequence.1 := by
  rcases h with ⟨hs, hc⟩
  unfold KVStore.NextSequence
  refine ⟨dbInsert_sorted _ _ _ hs, ?_⟩
  show dbLookup (dbInsert kv.db.entries keyForSequence
        (formatUint ((kv.currentSequence + 1) % 2 ^ 64))) keyForCount =
      some (formatUint (nrLen (kv.db.put keyForSequence
        (formatUint ((kv.currentSequence + 1) % 2 ^ 64))) % 2 ^ 64))
    ∨ (dbLookup (dbInsert kv.db.entries keyForSequence
        (formatUint ((kv.currentSequence + 1) % 2 ^ 64))) keyForCount = none
      ∧ nrLen (kv.db.put keyForSequence
        (formatUint ((kv.currentSequence + 1) % 2 ^ 64))) = 0)
  rw [dbLookup_insert_ne _ _ _ _ kfc_ne_kseq,
    nrLen_put_reserved kv.db keyForSequence _ hs reserved_kseq]
  exact hc

theorem CountInv_foldl : ∀ (ops : List StoreOp) (kv : KVStore), CountInv kv →
    CountInv (List.foldl applyOp kv ops)
  | [], _, h => h
  | op :: rest, kv, h => by
    rw [List.foldl_cons]
    refine CountInv_foldl rest _ ?_
    cases op with
    | put k v => exact CountInv_Put kv k v h
    | del k => exact CountInv_Delete kv k h
    | nextSeq => exact CountInv_NextSequence kv h

theorem CountInv_empty : CountInv KVStore.empty :=
  ⟨List.Pairwise.nil, Or.inr ⟨rfl, rfl⟩⟩

theorem CountInv_runOps (ops : List StoreOp) : CountInv (runOps ops) :=
  CountInv_foldl ops KVStore.empty CountInv_empty

theorem not_reserved_ne_seq (key : Bytes) (h : isReservedlKey key = false) :
    key ≠ keyForSequence := by
  intro he
  subst he
  simp [isReservedlKey, reservedlKeys] at h

theorem Has_Put (kv : KVStore) (k v k' : Bytes) (hr' : isReservedlKey k' = false) :
    (kv.Put k v).1.Has k' = (kv.Has k' || decide (k' = k)) := by
  unfold KVStore.Put
  by_cases hr : isReservedlKey k = true
  · rw [if_pos hr]
    have hne : k' ≠ k := by
      intro he
      subst he
      rw [hr'] at hr
      cases hr
    simp [hne]
  · rw [if_neg hr]
    by_cases hh : kv.Has k = true
    · rw [if_pos hh]
      show (dbLookup (dbInsert kv.db.entries k v) k').isSome = _
      by_cases he : k' = k
      · subst he
        rw [dbLookup_insert_self]
        simp
      · rw [dbLookup_insert_ne _ _ _ _ he]
        simp only [he, decide_False, Bool.or_false]
        rfl
    · rw [if_neg hh]
      show (dbLookup (dbInsert (dbInsert kv.db.entries k v) keyForCount _) k').isSome = _
      rw [dbLookup_insert_ne _ _ _ _ (not_reserved_ne_count k' hr')]
      by_cases he : k' = k
      · subst he
        rw [dbLookup_insert_self]
        simp
      · rw [dbLookup_insert_ne _ _ _ _ he]
        simp only [he, decide_False, Bool.or_false]
        rfl

theorem Has_Delete (kv : KVStore) (k k' : Bytes) (hs : DBSorted kv.db)
    (hr' : isReservedlKey k' = false) :
    (kv.Delete k).1.Has k' = (kv.Has k' && ! decide (k' = k)) := by
  unfold KVStore.Delete
  by_cases hr : isReservedlKey k = true
  · rw [if_pos hr]
    have hne : k' ≠ k := by
      intro he
      subst he
      rw [hr'] at hr
      cases hr
    simp [hne]
  · rw [if_neg hr]
    by_cases hh : kv.Has k = true
    · rw [if_pos hh]
      show (dbLookup (dbInsert (dbRemove kv.db.entries k) keyForCount _) k').isSome = _
      rw [dbLookup_insert_ne _ _ _ _ (not_reserved_ne_count k' hr')]
      by_cases he : k' = k
      · subst he
        rw [dbLookup_remove_self _ _ hs]
        simp
      · rw [dbLookup_remove_ne _ _ _ he]
        simp only [he, decide_False, Bool.not_false, Bool.and_true]
        rfl
    · rw [if_neg hh]
      have hhf : kv.Has k = false := by
        cases hx : kv.Has k
        · rfl
        · exact absurd hx hh
      by_cases he : k' = k
      · subst he
        simp [hhf]
      · simp [he]

theorem Has_NextSequence (kv : KVStore) (k' : Bytes) (hr' : isReservedlKey k' = false) :
    kv.NextSequence.1.Has k' = kv.Has k' := by
  unfold KVStore.NextSequence
  show (dbLookup (dbInsert kv.db.entries keyForSequence _) k').isSome = _
  rw [dbLookup_insert_ne _ _ _ _ (not_reserved_ne_seq k' hr')]
  rfl

/-- The relation maintained while replaying puts and deletes from the empty
store: the invariant holds and `S` lists exactly the non-reserved keys
present. -/
def goodState (kv : KVStore) (S : List Bytes) : Prop :=
  CountInv kv
  ∧ S.Nodup
  ∧ (∀ x ∈ S, isReservedlKey x = false)
  ∧ (∀ x, isReservedlKey x = false → (kv.Has x = true ↔ x ∈ S))
  ∧ nrLen kv.db = S.length

theorem goodState_put (kv : KVStore) (S : List Bytes) (k v : Bytes)
    (hg : goodState kv S) (hr : isReservedlKey k = false) (hnew : k ∉ S) :
    goodState (kv.Put k v).1 (S ++ [k]) := by
  obtain ⟨hinv, hnd, hres, hchar, hlen⟩ := hg
  have hhk : kv.Has k = false := by
    cases hx : kv.Has k
    · rfl
    · exact absurd ((hchar k hr).mp hx) hnew
  refine ⟨CountInv_Put kv k v hinv, ?_, ?_, ?_, ?_⟩
  · rw [List.nodup_append]
    refine ⟨hnd, List.nodup_singleton k, ?_⟩
    intro a ha hb
    rw [List.mem_singleton.mp hb] at ha
    exact hnew ha
  · intro x hx
    rcases List.mem_append.mp hx with h | h
    · exact hres x h
    · rw [List.mem_singleton.mp h]
      exact hr
  · intro x hx'
    rw [Has_Put kv k v x hx']
    simp only [Bool.or_eq_true, decide_eq_true_eq, List.mem_append, List.mem_singleton]
    constructor
    · intro hor
      rcases hor with h | h
      · exact Or.inl ((hchar x hx').mp h)
      · exact Or.inr h
    · intro hor
      rcases hor with h | h
      · exact Or.inl ((hchar x hx').mpr h)
      · exact Or.inr h
  · unfold KVStore.Put
    rw [if_neg (by simp [hr]), if_neg (by simp [hhk])]
    show nrLen ((kv.db.put k v).put keyForCount
      (formatUint ((kv.count + 1) % 2 ^ 64))) = _
    rw [nrLen_put_reserved (kv.db.put k v) keyForCount
        (formatUint ((kv.count + 1) % 2 ^ 64)) (dbInsert_sorted _ _ _ hinv.1) reserved_kfc,
      nrLen_put_new kv.db k v hr (has_false_get_none kv k hhk), hlen]
    simp

theorem goodState_del (kv : KVStore) (S : List Bytes) (k : Bytes)
    (hg : goodState kv S) (hr : isReservedlKey k = false) (hmem : k ∈ S) :
    goodState (kv.Delete k).1 (S.erase k) := by
  obtain ⟨hinv, hnd, hres, hchar, hlen⟩ := hg
  have hhk : kv.Has k = true := (hchar k hr).mpr hmem
  refine ⟨CountInv_Delete kv k hinv, hnd.erase k, ?_, ?_, ?_⟩
  · intro x hx
    exact hres x (List.mem_of_mem_erase hx)
  · intro x hx'
    rw [Has_Delete kv k x hinv.1 hx', hnd.mem_erase_iff]
    simp only [Bool.and_eq_true, Bool.not_eq_true', decide_eq_false_iff_not]
    constructor
    · intro hb
      exact ⟨hb.2, (hchar x hx').mp hb.1⟩
    · intro hb
      exact ⟨(hchar x hx').mpr hb.2, hb.1⟩
  · unfold KVStore.Delete
    rw [if_neg (by simp [hr]), if_pos hhk]
    show nrLen ((kv.db.delete k).put keyForCount
      (formatUint ((kv.count + (2 ^ 64 - 1)) % 2 ^ 64))) = _
    rw [nrLen_put_reserved (kv.db.delete k) keyForCount
        (formatUint ((kv.count + (2 ^ 64 - 1)) % 2 ^ 64)) (dbRemove_sorted _ _ hinv.1)
        reserved_kfc]
    have h1 := nrLen_remove kv.db k hinv.1 hr (hhk : (dbLookup kv.db.entries k).isSome)
    have h2 := List.length_erase_of_mem hmem
    have h3 := List.length_pos_of_mem hmem
    omega

theorem goodState_putFold : ∀ (ks : List Bytes) (kv : KVStore) (S : List Bytes),
    goodState kv S → ks.Nodup → (∀ x ∈ ks, isReservedlKey x = false) →
    (∀ x ∈ ks, x ∉ S) →
    goodState (List.foldl applyOp kv (ks.map (fun x => StoreOp.put x []))) (S ++ ks)
  | [], kv, S, hg, _, _, _ => by simpa using hg
  | k :: ks', kv, S, hg, hnd, hres, hdisj => by
    rw [List.map_cons, List.foldl_cons]
    have hg1 := goodState_put kv S k [] hg (hres k (List.mem_cons_self _ _))
      (hdisj k (List.mem_cons_self _ _))
    have hmain := goodState_putFold ks' ((kv.Put k []).1) (S ++ [k]) hg1
      (List.nodup_cons.mp hnd).2
      (fun x hx => hres x (List.mem_cons_of_mem _ hx))
      (fun x hx hmem => by
        rcases List.mem_append.mp hmem with h | h
        · exact hdisj x (List.mem_cons_of_mem _ hx) h
        · rw [List.mem_singleton.mp h] at hx
          exact (List.nodup_cons.mp hnd).1 hx)
    rw [List.append_assoc] at hmain
    simpa using hmain

theorem goodState_delFold : ∀ (ds : List Bytes) (kv : KVStore) (S : List Bytes),
    goodState kv S → ds.Nodup → (∀ x ∈ ds, isReservedlKey x = false) →
    (∀ x ∈ ds, x ∈ S) →
    ∃ S', goodState (List.foldl applyOp kv (ds.map StoreOp.del)) S'
      ∧ S'.length = S.length - ds.length
  | [], kv, S, hg, _, _, _ => ⟨S, by simpa using hg, by simp⟩
  | d :: ds', kv, S, hg, hnd, hres, hsub => by
    rw [List.map_cons, List.foldl_cons]
    have hdS := hsub d (List.mem_cons_self _ _)
    have hg1 := goodState_del kv S d hg (hres d (List.mem_cons_self _ _)) hdS
    obtain ⟨S', h1, h2⟩ := goodState_delFold ds' ((kv.Delete d).1) (S.erase d) hg1
      (List.nodup_cons.mp hnd).2
      (fun x hx => hres x (List.mem_cons_of_mem _ hx))
      (fun x hx => by
        have hxS := hsub x (List.mem_cons_of_mem _ hx)
        have hxd : x ≠ d := by
          intro he
          subst he
          exact (List.nodup_cons.mp hnd).1 hx
        exact (hg.2.1.mem_erase_iff).mpr ⟨hxd, hxS⟩)
    refine ⟨S', h1, ?_⟩
    rw [h2, List.length_erase_of_mem hdS]
    have := List.length_pos_of_mem hdS
    simp only [List.length_cons]
    omega

/-- C3: starting from the empty store, the maintained count always equals
the number of distinct non-reserved keys present (modulo `2 ^ 64`, mirroring
the uint64 count cell); `Put` of a new key increments `Count()` by one,
`Put` of an existing key leaves it unchanged, a successful `Delete`
decrements it by one; and after inserting `k` distinct keys and deleting
`d` of them, `Count()` returns `k - d`. -/
theorem claim_C3_count_tracks_keys :
    (∀ ops : List StoreOp,
       KVStore.Count (runOps ops) = (nonReservedKeys (runOps ops)).length % 2 ^ 64)
  ∧ (∀ (ops : List StoreOp) (k v : Bytes), isReservedlKey k = false →
       (runOps ops).Has k = false →
       (nonReservedKeys (runOps ops)).length + 1 < 2 ^ 64 →
       KVStore.Count ((runOps ops).Put k v).1 = KVStore.Count (runOps ops) + 1)
  ∧ (∀ (ops : List StoreOp) (k v : Bytes), isReservedlKey k = false →
       (runOps ops).Has k = true →
       KVStore.Count ((runOps ops).Put k v).1 = KVStore.Count (runOps ops))
  ∧ (∀ (ops : List StoreOp) (k : Bytes), isReservedlKey k = false →
       (runOps ops).Has k = true →
       (nonReservedKeys (runOps ops)).length < 2 ^ 64 →
       KVStore.Count ((runOps ops).Delete k).1 = KVStore.Count (runOps ops) - 1)
  ∧ (∀ ks ds : List Bytes, ks.Nodup → ds.Nodup →
       (∀ x ∈ ks, isReservedlKey x = false) → (∀ x ∈ ds, x ∈ ks) →
       ks.length < 2 ^ 64 →
       KVStore.Count (runOps (ks.map (fun x => StoreOp.put x []) ++ ds.map StoreOp.del)) =
         ks.length - ds.length) := by
  have hbase : goodState KVStore.empty [] := by
    refine ⟨CountInv_empty, List.nodup_nil, by simp, ?_, rfl⟩
    intro x _
    constructor
    · intro h
      cases h
    · intro h
      exact absurd h (List.not_mem_nil x)
  refine ⟨?_, ?_, ?_, ?_, ?_⟩
  · intro ops
    exact count_of_inv _ (CountInv_runOps ops)
  · intro ops k v hr hh hb
    have hinv := CountInv_runOps ops
    have hnew : nrLen ((runOps ops).Put k v).1.db = nrLen (runOps ops).db + 1 := by
      unfold KVStore.Put
      rw [if_neg (by simp [hr]), if_neg (by simp [hh])]
      show nrLen (((runOps ops).db.put k v).put keyForCount
        (formatUint (((runOps ops).count + 1) % 2 ^ 64))) = _
      rw [nrLen_put_reserved ((runOps ops).db.put k v) keyForCount
          (formatUint (((runOps ops).count + 1) % 2 ^ 64))
          (dbInsert_sorted _ _ _ hinv.1) reserved_kfc,
        nrLen_put_new (runOps ops).db k v hr (has_false_get_none _ k hh)]
    show ((runOps ops).Put k v).1.count = (runOps ops).count + 1
    rw [count_of_inv _ (CountInv_Put (runOps ops) k v hinv),
      count_of_inv _ hinv, nrLen_eq, nrLen_eq, hnew]
    rw [nrLen_eq] at hb
    rw [Nat.mod_eq_of_lt (by omega), Nat.mod_eq_of_lt (by omega)]
  · intro ops k v hr hh
    have hinv := CountInv_runOps ops
    have hkeep : nrLen ((runOps ops).Put k v).1.db = nrLen (runOps ops).db := by
      unfold KVStore.Put
      rw [if_neg (by simp [hr]), if_pos hh]
      show nrLen ((runOps ops).db.put k v) = _
      exact nrLen_put_existing (runOps ops).db k v hinv.1 hh
    show ((runOps ops).Put k v).1.count = (runOps ops).count
    rw [count_of_inv _ (CountInv_Put (runOps ops) k v hinv),
      count_of_inv _ hinv, nrLen_eq, nrLen_eq, hkeep]
  · intro ops k hr hh hb
    have hinv := CountInv_runOps ops
    have hmemk : k ∈ nonReservedKeys (runOps ops) :=
      List.mem_filter.mpr ⟨(Has_iff_mem_keys _ k).mp hh, by simp [hr]⟩
    have hpos : 1 ≤ nrLen (runOps ops).db := by
      rw [← nrLen_eq]
      exact List.length_pos_of_mem hmemk
    have hdec : nrLen ((runOps ops).Delete k).1.db = nrLen (runOps ops).db - 1 := by
      unfold KVStore.Delete
      rw [if_neg (by simp [hr]), if_pos hh]
      show nrLen (((runOps ops).db.delete k).put keyForCount
        (formatUint (((runOps ops).count + (2 ^ 64 - 1)) % 2 ^ 64))) = _
      rw [nrLen_put_reserved ((runOps ops).db.delete k) keyForCount
          (formatUint (((runOps ops).count + (2 ^ 64 - 1)) % 2 ^ 64))
          (dbRemove_sorted _ _ hinv.1) reserved_kfc]
      have := nrLen_remove (runOps ops).db k hinv.1 hr hh
      omega
    show ((runOps ops).Delete k).1.count = (runOps ops).count - 1
    rw [count_of_inv _ (CountInv_Delete (runOps ops) k hinv),
      count_of_inv _ hinv, nrLen_eq, nrLen_eq, hdec]
    rw [nrLen_eq] at hb
    rw [Nat.mod_eq_of_lt (by omega), Nat.mod_eq_of_lt (by omega)]
  · intro ks ds hknd hdnd hkres hdsub hkb
    have hput := goodState_putFold ks KVStore.empty [] hbase hknd hkres
      (fun x _ => List.not_mem_nil x)
    rw [List.nil_append] at hput
    obtain ⟨S', hS', hlenS'⟩ := goodState_delFold ds _ ks hput hdnd
      (fun x hx => hkres x (hdsub x hx)) hdsub
    show (runOps (ks.map (fun x => StoreOp.put x []) ++ ds.map StoreOp.del)).count = _
    unfold runOps
    rw [List.foldl_append]
    rw [count_of_inv _ hS'.1, nrLen_eq, hS'.2.2.2.2, hlenS',
      Nat.mod_eq_of_lt (by omega)]

/-- Witness for C3 at concrete operation sequences: two puts and one delete,
plus the inner conjuncts applied at fresh and existing keys. -/
theorem claim_C3_witness :
    KVStore.Count (runOps [StoreOp.put [97] [], StoreOp.put [99] [], StoreOp.del [97]]) =
      (nonReservedKeys (runOps [StoreOp.put [97] [], StoreOp.put [99] [],
        StoreOp.del [97]])).length % 2 ^ 64
  ∧ (isReservedlKey [98] = false
      ∧ (runOps [StoreOp.put [97] []]).Has [98] = false
      ∧ (nonReservedKeys (runOps [StoreOp.put [97] []])).length + 1 < 2 ^ 64
      ∧ KVStore.Count ((runOps [StoreOp.put [97] []]).Put [98] [1]).1 =
          KVStore.Count (runOps [StoreOp.put [97] []]) + 1)
  ∧ (isReservedlKey [97] = false
      ∧ (runOps [StoreOp.put [97] []]).Has [97] = true
      ∧ KVStore.Count ((runOps [StoreOp.put [97] []]).Put [97] [1]).1 =
          KVStore.Count (runOps [StoreOp.put [97] []]))
  ∧ (isReservedlKey [97] = false
      ∧ (runOps [StoreOp.put [97] []]).Has [97] = true
      ∧ (nonReservedKeys (runOps [StoreOp.put [97] []])).length < 2 ^ 64
      ∧ KVStore.Count ((runOps [StoreOp.put [97] []]).Delete [97]).1 =
          KVStore.Count (runOps [StoreOp.put [97] []]) - 1)
  ∧ ([[97], [99]].Nodup ∧ [[97]].Nodup
      ∧ (∀ x ∈ [[97], [99]], isReservedlKey x = false)
      ∧ (∀ x ∈ ([[97]] : List Bytes), x ∈ [[97], [99]])
      ∧ ([[97], [99]] : List Bytes).length < 2 ^ 64
      ∧ KVStore.Count (runOps (([[97], [99]] : List Bytes).map (fun x => StoreOp.put x []) ++
          ([[97]] : List Bytes).map StoreOp.del)) = [[97], [99]].length - [[97]].length) :=
  ⟨claim_C3_count_tracks_keys.1 [StoreOp.put [97] [], StoreOp.put [99] [], StoreOp.del [97]],
   ⟨by decide, by decide, by decide,
    claim_C3_count_tracks_keys.2.1 [StoreOp.put [97] []] [98] [1] (by decide) (by decide)
      (by decide)⟩,
   ⟨by decide, by decide,
    claim_C3_count_tracks_keys.2.2.1 [StoreOp.put [97] []] [97] [1] (by decide) (by decide)⟩,
   ⟨by decide, by decide, by decide,
    claim_C3_count_tracks_keys.2.2.2.1 [StoreOp.put [97] []] [97] (by decide) (by decide)
      (by decide)⟩,
   ⟨by decide, by decide, by decide, by decide, by decide,
    claim_C3_count_tracks_keys.2.2.2.2 [[97], [99]] [[97]] (by decide) (by decide) (by decide)
      (by decide) (by decide)⟩⟩
